import Mathlib

/-!
# SBN (Simple Bayesian Networking library): Event and Node

A shallow embedding of `src/event.cpp`, of `src/node.cpp`, of `src/quicksort.c` and of the
table population in `test/sbntest.cpp`.

* `std::string` is `String`; `operator<` on strings is the lexicographic order of the
  character sequences, written `a.data < b.data` so that it evaluates by reduction.
* `std::map<K, V>` is the list of its entries in iteration order (ascending keys).
* `Node*` is an index into a heap of nodes.
* `double` is a type parameter `R`; the code only uses `0.0`, `1.0`, `+`, `*`, `<`.
  Sums and products are the ones the code forms, from left to right; laws of the arithmetic
  are assumed only where a statement is about exact arithmetic.
* The number that `random()` gives is an argument of the function that draws it.
* `int` is `Int`: `sort` only moves and compares the elements, and its indices stay within one
  step of the range it is called on.
* `throw runtime_error(msg)` is `Except.error ⟨msg⟩`.
-/

namespace sbn

deriving instance DecidableEq for Except

/-- The exception type `std::runtime_error`, carrying its message. -/
structure runtime_error where
  what : String
deriving DecidableEq, Repr

/-- The type `ObservationMap = map<string, string>`: entries in ascending key order. -/
abbrev ObservationMap := List (String × String)

namespace ObservationMap

/-- The call `m.find(nodename)`: the mapped value of the entry with that key, `none` for `end()`. -/
def find : ObservationMap → String → Option String
  | [], _ => none
  | (k, v) :: rest, nodename => if k = nodename then some v else find rest nodename

/-- The statement `m[nodename] = state`: assign to the entry with that key, creating it at its
place in key order when it is missing. -/
def insert_or_assign : ObservationMap → String → String → ObservationMap
  | [], nodename, state => [(nodename, state)]
  | (k, v) :: rest, nodename, state =>
    if nodename.data < k.data then (nodename, state) :: (k, v) :: rest
    else if k.data < nodename.data then (k, v) :: insert_or_assign rest nodename state
    else (k, state) :: rest

/-- The call `m.erase(m.find(nodename))` for a key that may be missing: drop its entry. -/
def erase : ObservationMap → String → ObservationMap
  | [], _ => []
  | (k, v) :: rest, nodename => if k = nodename then rest else (k, v) :: erase rest nodename

end ObservationMap

/-- The class `Event`: the mapping and the string derived from it. -/
structure Event where
  m_observations : ObservationMap
  m_string_representation : String
deriving DecidableEq, Repr

namespace Event

/-- The method `Event::generate_string_representation`. -/
def generate_string_representation (this : Event) : Event :=
  { this with
    m_string_representation :=
      this.m_observations.foldl
        (fun repr iter =>
          (if repr.length > 0 then repr ++ ", " else repr) ++ (iter.1 ++ " = " ++ iter.2))
        "" }

/-- The default constructor `Event::Event()`: both members default-initialised. -/
def new : Event := { m_observations := [], m_string_representation := "" }

/-- The copy assignment `Event::operator=`; `same_object` is the outcome of `this == &event`. -/
def operator_assign (this event : Event) (same_object : Bool) : Event :=
  if !same_object then
    generate_string_representation { this with m_observations := event.m_observations }
  else this

/-- The copy constructor `Event::Event(const Event&)`: `*this = event` on a fresh object. -/
def copy (event : Event) : Event := operator_assign new event false

/-- The comparison `Event::operator<`. -/
def operator_lt (this event : Event) : Bool :=
  decide (this.m_string_representation.data < event.m_string_representation.data)

/-- The method `Event::get_node_state`. -/
def get_node_state (this : Event) (nodename : String) : Except runtime_error String :=
  match this.m_observations.find nodename with
  | none => .error ⟨"Invalid node"⟩
  | some state => .ok state

/-- The method `Event::has_node`. -/
def has_node (this : Event) (nodename : String) : Bool :=
  match this.m_observations.find nodename with
  | some _ => true
  | none => false

/-- The method `Event::node_has_state`. -/
def node_has_state (this : Event) (nodename state : String) : Bool :=
  match this.m_observations.find nodename with
  | some s => if s = state then true else false
  | none => false

/-- The method `Event::set_node`. -/
def set_node (this : Event) (nodename state : String) : Event :=
  generate_string_representation
    { this with m_observations := this.m_observations.insert_or_assign nodename state }

/-- The method `Event::remove_node`. -/
def remove_node (this : Event) (nodename : String) : Event :=
  generate_string_representation
    { this with m_observations := this.m_observations.erase nodename }

/-- The method `Event::clear`. -/
def clear (this : Event) : Event :=
  generate_string_representation { this with m_observations := [] }

end Event

/-- The type `ProbabilityMap = map<Event, double>`: entries in ascending key order, keys compared
by `Event::operator<`. -/
abbrev ProbabilityMap (R : Type) := List (Event × R)

/-- The statement `m[e] = prob` on a `ProbabilityMap`: an entry whose key is equivalent to `e`
(neither is less than the other) keeps its key and gets the new value. -/
def ProbabilityMap.insert_or_assign {R : Type} :
    ProbabilityMap R → Event → R → ProbabilityMap R
  | [], e, prob => [(e, prob)]
  | (k, v) :: rest, e, prob =>
    if e.operator_lt k then (e, prob) :: (k, v) :: rest
    else if k.operator_lt e then (k, v) :: ProbabilityMap.insert_or_assign rest e prob
    else (k, prob) :: rest

/-- A `Node*`: the index of a node in the heap. -/
abbrev NodePtr := Nat

/-- The class `Node`. -/
structure Node (R : Type) where
  m_name : String
  m_probabilities : ProbabilityMap R
  m_parents : List NodePtr
  m_children : List NodePtr
  m_states : List String

/-- The nodes of the program, by address. -/
abbrev Heap (R : Type) := NodePtr → Node R

namespace Node

variable {R : Type}

/-- The method `Node::get_name`. -/
def get_name (h : Heap R) (this : NodePtr) : String := (h this).m_name

/-- The method `Node::add_state`. -/
def add_state (h : Heap R) (this : NodePtr) (name : String) : Heap R :=
  Function.update h this { h this with m_states := (h this).m_states ++ [name] }

/-- The method `Node::set_probability`. -/
def set_probability (h : Heap R) (this : NodePtr) (e : Event) (prob : R) : Heap R :=
  Function.update h this
    { h this with m_probabilities := (h this).m_probabilities.insert_or_assign e.copy prob }

/-- The `for` loop of `Node::can_be_evaluated` over the parents. -/
def can_be_evaluated_loop (h : Heap R) (evidence : Event) : List NodePtr → Bool
  | [] => true
  | iter :: rest =>
    if !evidence.has_node (get_name h iter) then false
    else can_be_evaluated_loop h evidence rest

/-- The method `Node::can_be_evaluated`. -/
def can_be_evaluated (h : Heap R) (this : NodePtr) (evidence : Event) : Bool :=
  if (h this).m_parents.isEmpty then true
  else can_be_evaluated_loop h evidence (h this).m_parents

/-- The first `while` loop of `Node::remove_irrelevant_states`: erase the entries whose key does
not give this node the wanted state. The local `e` is overwritten by `e = i->first` in every
round, so its value from the previous round is not passed along. -/
def erase_other_states (m_name state : String) : ProbabilityMap R → ProbabilityMap R
  | [] => []
  | i :: rest =>
    let e := Event.operator_assign Event.new i.1 false
    if !e.node_has_state m_name state then erase_other_states m_name state rest
    else i :: erase_other_states m_name state rest

/-- The inner `while` loop of `Node::remove_irrelevant_states` for one parent: erase the entries
whose key does not give the parent the state the evidence gives it. -/
def erase_other_parent_states (parentname : String) (evidence : Event) :
    ProbabilityMap R → Except runtime_error (ProbabilityMap R)
  | [] => .ok []
  | i :: rest =>
    let e := Event.operator_assign Event.new i.1 false
    match evidence.get_node_state parentname with
    | .error err => .error err
    | .ok parentstate =>
      match erase_other_parent_states parentname evidence rest with
      | .error err => .error err
      | .ok rest' =>
        if !e.node_has_state parentname parentstate then .ok rest' else .ok (i :: rest')

/-- The `for` loop of `Node::remove_irrelevant_states` over the parents. -/
def remove_irrelevant_parent_states (h : Heap R) (evidence : Event) :
    List NodePtr → ProbabilityMap R → Except runtime_error (ProbabilityMap R)
  | [], prob => .ok prob
  | parent_iter :: rest, prob =>
    let parentname := get_name h parent_iter
    if !evidence.has_node parentname then .error ⟨"Marginal cannot be evaluated"⟩
    else
      match erase_other_parent_states parentname evidence prob with
      | .error err => .error err
      | .ok prob' => remove_irrelevant_parent_states h evidence rest prob'

/-- The method `Node::remove_irrelevant_states`; the result is `prob` after the call. -/
def remove_irrelevant_states (h : Heap R) (this : NodePtr) (prob : ProbabilityMap R)
    (state : String) (evidence : Event) : Except runtime_error (ProbabilityMap R) :=
  remove_irrelevant_parent_states h evidence (h this).m_parents
    (erase_other_states (h this).m_name state prob)

/-- The method `Node::evaluate_marginal`: the returned number and the heap after the call. The
table that is filtered is the local copy `prob`. -/
def evaluate_marginal [Zero R] [Add R] (h : Heap R) (this : NodePtr) (state : String)
    (event : Event) : Except runtime_error (R × Heap R) :=
  let prob := (h this).m_probabilities
  match remove_irrelevant_states h this prob state event with
  | .error err => .error err
  | .ok prob' => .ok (prob'.foldl (fun returnval iter => returnval + iter.2) 0, h)

/-- The block shared by both halves of `Node::next_combination`: `i = find(start, end,
current_state)`, the two checks and `++i` with wrap-around. The result is `*i` and whether `i`
wrapped. -/
def next_state (states : List String) (current_state : String) :
    Except runtime_error (String × Bool) :=
  if hfound : states.indexOf current_state = states.length then
    .error ⟨"Event contains invalid state"⟩
  else if hlast : states.indexOf current_state + 1 = states.length then
    match states with
    | [] => .error ⟨"Encountered stateless node"⟩
    | start :: _ => .ok (start, true)
  else
    .ok (states.get ⟨states.indexOf current_state + 1, by
      have hle := @List.indexOf_le_length _ _ current_state states
      omega⟩, false)

/-- The `do ... while` loop of `Node::next_combination` over the parents, given in the order
the reverse iterator visits them. The result is the event, `flipped` and `changed_state`. -/
def next_combination_parents (h : Heap R) :
    List NodePtr → Event → Except runtime_error (Event × Bool × Bool)
  | [], event => .ok (event, false, false)
  | parent :: rest, event =>
    match event.get_node_state (h parent).m_name with
    | .error err => .error err
    | .ok current_state =>
      match next_state (h parent).m_states current_state with
      | .error err => .error err
      | .ok (s, flipped) =>
        if !rest.isEmpty && flipped then
          next_combination_parents h rest (event.set_node (h parent).m_name s)
        else .ok (event.set_node (h parent).m_name s, flipped, true)

/-- The method `Node::next_combination`; the result is `event` after the call. -/
def next_combination (h : Heap R) (this : NodePtr) (event : Event) :
    Except runtime_error Event :=
  match next_combination_parents h (h this).m_parents.reverse event with
  | .error err => .error err
  | .ok (event', flipped, changed_state) =>
    if flipped || !changed_state then
      match event'.get_node_state (h this).m_name with
      | .error err => .error err
      | .ok current_state =>
        match next_state (h this).m_states current_state with
        | .error err => .error err
        | .ok (s, _) => .ok (event'.set_node (h this).m_name s)
    else .ok event'

end Node

/-! ## Specification-level notions -/

/-- The invariant of `std::map`: the entries are in strictly ascending key order. -/
def ObservationMap.ordered (m : ObservationMap) : Prop :=
  m.Pairwise (fun a b => a.1.data < b.1.data)

/-- The rendering of a mapping the specification describes: every entry written as
`name = state`, the entries joined by `, `. -/
def canonical_string (m : ObservationMap) : String :=
  ", ".intercalate (m.map (fun kv => kv.1 ++ " = " ++ kv.2))

/-- The events a program can hold: made by a constructor and changed by the mutating members. -/
inductive Event.Reachable : Event → Prop
  | new : Event.Reachable Event.new
  | copy (e : Event) : Event.Reachable e → Event.Reachable (Event.copy e)
  | assign (a b : Event) : Event.Reachable a → Event.Reachable b →
      Event.Reachable (a.operator_assign b false)
  | self_assign (a : Event) : Event.Reachable a → Event.Reachable (a.operator_assign a true)
  | set_node (e : Event) (nodename state : String) : Event.Reachable e →
      Event.Reachable (e.set_node nodename state)
  | remove_node (e : Event) (nodename : String) : Event.Reachable e →
      Event.Reachable (e.remove_node nodename)
  | clear (e : Event) : Event.Reachable e → Event.Reachable e.clear

/-- The event left by a sequence of `set_node` calls on a default-constructed event. -/
def Event.build (calls : List (String × String)) : Event :=
  calls.foldl (fun e c => e.set_node c.1 c.2) Event.new

/-- The key `key` of a table entry gives the node the state `state` and gives every parent the
state the evidence gives that parent. -/
def Node.key_matches {R : Type} (h : Heap R) (this : NodePtr) (state : String)
    (evidence key : Event) : Bool :=
  decide (key.get_node_state (h this).m_name = .ok state) &&
    (h this).m_parents.all (fun p =>
      match evidence.get_node_state (h p).m_name with
      | .ok s => decide (key.get_node_state (h p).m_name = .ok s)
      | .error _ => false)

/-- The list `c` gives one declared state for every parent, in parent order: a parent
configuration. -/
def Node.is_parent_configuration {R : Type} (h : Heap R) (this : NodePtr) (c : List String) :
    Bool :=
  decide (c.length = (h this).m_parents.length) &&
    ((h this).m_parents.zip c).all (fun pc => decide (pc.2 ∈ (h pc.1).m_states))

/-- The key `key` is the assignment of the node to the state `s` and of the parents, in order,
to the states `c`: it gives these states and holds no other variable. -/
def Node.is_assignment {R : Type} (h : Heap R) (this : NodePtr) (s : String) (c : List String)
    (key : Event) : Bool :=
  decide (key.get_node_state (h this).m_name = .ok s) &&
    decide (c.length = (h this).m_parents.length) &&
    ((h this).m_parents.zip c).all
      (fun pc => decide (key.get_node_state (h pc.1).m_name = .ok pc.2)) &&
    key.m_observations.all (fun kv =>
      decide (kv.1 = (h this).m_name) ||
        (h this).m_parents.any (fun p => decide (kv.1 = (h p).m_name)))

/-- The probability the table holds for the state `s` of the node under the parent
configuration `c`. -/
def Node.table_probability {R : Type} [AddMonoid R] (h : Heap R) (this : NodePtr) (s : String)
    (c : List String) : R :=
  (((h this).m_probabilities.filter (fun i => Node.is_assignment h this s c i.1)).map
    Prod.snd).sum

/-- The node is well formed for enumeration: its state list and the state list of every parent
are non-empty and duplicate-free, and the names of the node and its parents are pairwise
distinct. -/
def Node.well_formed {R : Type} (h : Heap R) (this : NodePtr) : Prop :=
  ((h this).m_states ≠ [] ∧ (h this).m_states.Nodup) ∧
    (∀ p ∈ (h this).m_parents, (h p).m_states ≠ [] ∧ (h p).m_states.Nodup) ∧
    ((h this).m_name :: (h this).m_parents.map (fun p => (h p).m_name)).Nodup

/-- The event gives the node and every parent one of its declared states. -/
def Node.holds_combination {R : Type} (h : Heap R) (this : NodePtr) (event : Event) : Prop :=
  (∃ s ∈ (h this).m_states, event.get_node_state (h this).m_name = .ok s) ∧
    ∀ p ∈ (h this).m_parents, ∃ s ∈ (h p).m_states,
      event.get_node_state (h p).m_name = .ok s

/-- The digit of a variable: the index, in its declared state list, of the state the event
gives it (the length of the list when there is none). -/
def Node.state_index (states : List String) (event : Event) (name : String) : Nat :=
  match event.get_node_state name with
  | .ok s => states.indexOf s
  | .error _ => states.length

/-- The digit string of an event: the digit of the node, then the digits of the parents from
the first added to the last added. -/
def Node.combination_digits {R : Type} (h : Heap R) (this : NodePtr) (event : Event) :
    List Nat :=
  Node.state_index (h this).m_states event (h this).m_name ::
    (h this).m_parents.map (fun p => Node.state_index (h p).m_states event (h p).m_name)

/-- The radices that go with `combination_digits`: the numbers of declared states. -/
def Node.combination_radices {R : Type} (h : Heap R) (this : NodePtr) : List Nat :=
  (h this).m_states.length :: (h this).m_parents.map (fun p => (h p).m_states.length)

/-- The number written by a digit string in mixed radix, most significant digit first. -/
def mixed_radix_value (radices digits : List Nat) : Nat :=
  (digits.zip radices).foldl (fun acc dr => acc * dr.2 + dr.1) 0

/-- The place of an event in the enumeration: the number its digit string writes. -/
def Node.combination_index {R : Type} (h : Heap R) (this : NodePtr) (event : Event) : Nat :=
  mixed_radix_value (Node.combination_radices h this) (Node.combination_digits h this event)

/-- The number of combinations: own states times the product of the parents' states. -/
def Node.combination_count {R : Type} (h : Heap R) (this : NodePtr) : Nat :=
  (Node.combination_radices h this).prod

/-- The result of calling `next_combination` `k` times in a row on the same event. -/
def Node.next_combination_iterate {R : Type} (h : Heap R) (this : NodePtr) :
    Nat → Event → Except runtime_error Event
  | 0, event => .ok event
  | k + 1, event =>
    match Node.next_combination_iterate h this k event with
    | .error err => .error err
    | .ok event' => Node.next_combination h this event'

/-- The number written by a list of (digit, radix) pairs, least significant digit first. -/
def value_lsf : List (Nat × Nat) → Nat
  | [] => 0
  | dr :: rest => dr.1 + dr.2 * value_lsf rest

/-- The (digit, radix) pairs of the nodes `ps` in an event. -/
def Node.digit_pairs {R : Type} (h : Heap R) (event : Event) (ps : List NodePtr) :
    List (Nat × Nat) :=
  ps.map (fun p => (Node.state_index (h p).m_states event (h p).m_name, (h p).m_states.length))

/-- The event that gives the node the state `s` and every node `p` of `ps` the state `c p`,
made by `set_node` calls. -/
def Node.combination_event {R : Type} (h : Heap R) (this : NodePtr) (s : String)
    (c : NodePtr → String) (ps : List NodePtr) : Event :=
  ps.foldr (fun p e => e.set_node (h p).m_name (c p)) (Event.new.set_node (h this).m_name s)

/-! ## Example heaps -/

/-- The heap of the example in the header: node `1` at address 0 with the parents `2` and `3`,
in that order, all with the states `T` and `F`. -/
def header_heap : Heap ℚ := fun p =>
  match p with
  | 0 => { m_name := "1", m_probabilities := [], m_parents := [1, 2], m_children := [],
           m_states := ["T", "F"] }
  | 1 => { m_name := "2", m_probabilities := [], m_parents := [], m_children := [0],
           m_states := ["T", "F"] }
  | 2 => { m_name := "3", m_probabilities := [], m_parents := [], m_children := [0],
           m_states := ["T", "F"] }
  | _ => { m_name := "", m_probabilities := [], m_parents := [], m_children := [],
           m_states := [] }

/-- An example heap: `Cloudy` at address 0 and its child `Sprinkler` at address 1, both with
the states `T` and `F`. The table of `Sprinkler` holds its four conditional probabilities, one
entry that also mentions `Rain`, and one entry that lacks `Sprinkler`. -/
def sprinkler_heap : Heap ℚ := fun p =>
  match p with
  | 0 => { m_name := "Cloudy", m_probabilities := [], m_parents := [], m_children := [1],
           m_states := ["T", "F"] }
  | 1 => { m_name := "Sprinkler",
           m_probabilities :=
             [(Event.build [("Cloudy", "F"), ("Sprinkler", "F")], 1 / 2),
              (Event.build [("Cloudy", "F"), ("Sprinkler", "T")], 1 / 2),
              (Event.build [("Cloudy", "T")], 1 / 4),
              (Event.build [("Cloudy", "T"), ("Rain", "T"), ("Sprinkler", "T")], 1 / 20),
              (Event.build [("Cloudy", "T"), ("Sprinkler", "F")], 9 / 10),
              (Event.build [("Cloudy", "T"), ("Sprinkler", "T")], 1 / 10)],
           m_parents := [0], m_children := [], m_states := ["T", "F"] }
  | _ => { m_name := "", m_probabilities := [], m_parents := [], m_children := [],
           m_states := [] }

/-- An example heap with a valid conditional table: `Cloudy` at address 0 and its child
`Sprinkler` at address 1. -/
def cpt_heap : Heap ℚ := fun p =>
  match p with
  | 0 => { m_name := "Cloudy", m_probabilities := [], m_parents := [], m_children := [1],
           m_states := ["T", "F"] }
  | 1 => { m_name := "Sprinkler",
           m_probabilities :=
             [(Event.build [("Cloudy", "F"), ("Sprinkler", "F")], 1 / 2),
              (Event.build [("Cloudy", "F"), ("Sprinkler", "T")], 1 / 2),
              (Event.build [("Cloudy", "T"), ("Sprinkler", "F")], 9 / 10),
              (Event.build [("Cloudy", "T"), ("Sprinkler", "T")], 1 / 10)],
           m_parents := [0], m_children := [], m_states := ["T", "F"] }
  | _ => { m_name := "", m_probabilities := [], m_parents := [], m_children := [],
           m_states := [] }

/-! ## The graph members, the Markov blanket and the test program -/

namespace Node

variable {R : Type}

/-- The method `Node::add_child`. -/
def add_child (h : Heap R) (this child : NodePtr) : Heap R :=
  if child = this then h
  else
    let h₁ := Function.update h this
      { h this with m_children := (h this).m_children ++ [child] }
    Function.update h₁ child { h₁ child with m_parents := (h₁ child).m_parents ++ [this] }

/-- The method `Node::add_parent`. -/
def add_parent (h : Heap R) (this parent : NodePtr) : Heap R :=
  if parent = this then h
  else
    let h₁ := Function.update h this
      { h this with m_parents := (h this).m_parents ++ [parent] }
    Function.update h₁ parent { h₁ parent with m_children := (h₁ parent).m_children ++ [this] }

/-- The `for` loop of `Node::evaluate_markov_blanket` over the children; the result is
`returnval` after the loop. -/
def evaluate_markov_blanket_children [Zero R] [Add R] [Mul R] (h : Heap R) (event : Event) :
    List NodePtr → R → Except runtime_error R
  | [], returnval => .ok returnval
  | node_iter :: rest, returnval =>
    let childname := get_name h node_iter
    match event.get_node_state childname with
    | .error err => .error err
    | .ok childstate =>
      match evaluate_marginal h node_iter childstate event with
      | .error err => .error err
      | .ok (marginal, _) =>
        evaluate_markov_blanket_children h event rest (returnval * marginal)

/-- The method `Node::evaluate_markov_blanket`: the returned number and `event` after the
call. When an exception leaves the method, `event` is not restored; that state is not part of
the result here. -/
def evaluate_markov_blanket [Zero R] [Add R] [One R] [Mul R] (h : Heap R) (this : NodePtr)
    (state : String) (event : Event) : Except runtime_error (R × Event) :=
  let prob := (h this).m_probabilities
  match remove_irrelevant_states h this prob state event with
  | .error err => .error err
  | .ok _ =>
    match event.get_node_state (h this).m_name with
    | .error err => .error err
    | .ok temp =>
      let event₁ := event.set_node (h this).m_name state
      match evaluate_marginal h this state event₁ with
      | .error err => .error err
      | .ok (marginal, _) =>
        match evaluate_markov_blanket_children h event₁ (h this).m_children (1 * marginal) with
        | .error err => .error err
        | .ok returnval => .ok (returnval, event₁.set_node (h this).m_name temp)

end Node

/-- The constructor `Node::Node(name)` for a non-empty name, for the four nodes of the test
program: `cloudy` at address 0, `sprinkler` at 1, `rain` at 2, `grasswet` at 3. -/
def test_nodes : Heap ℚ := fun p =>
  match p with
  | 0 => { m_name := "Cloudy", m_probabilities := [], m_parents := [], m_children := [],
           m_states := [] }
  | 1 => { m_name := "Sprinkler", m_probabilities := [], m_parents := [], m_children := [],
           m_states := [] }
  | 2 => { m_name := "Rain", m_probabilities := [], m_parents := [], m_children := [],
           m_states := [] }
  | 3 => { m_name := "GrassWet", m_probabilities := [], m_parents := [], m_children := [],
           m_states := [] }
  | _ => { m_name := "", m_probabilities := [], m_parents := [], m_children := [],
           m_states := [] }

/-- The test program up to the linking of the nodes: the `add_state` and `add_child` calls of
`main`. (`Net::add_node` is not among the sources; it is taken not to change the nodes.) -/
def test_linked_nodes : Heap ℚ :=
  let h := test_nodes
  let h := Node.add_state h 0 "T"
  let h := Node.add_state h 0 "F"
  let h := Node.add_state h 1 "T"
  let h := Node.add_state h 1 "F"
  let h := Node.add_state h 2 "T"
  let h := Node.add_state h 2 "F"
  let h := Node.add_state h 3 "T"
  let h := Node.add_state h 3 "F"
  let h := Node.add_child h 0 1
  let h := Node.add_child h 0 2
  let h := Node.add_child h 1 3
  Node.add_child h 2 3

/-- The statement `node.set_probability(node.next_combination(e), prob)` of the test program,
on the nodes and the event `e`. -/
def set_next_probability (st : Heap ℚ × Event) (node : NodePtr) (prob : ℚ) :
    Except runtime_error (Heap ℚ × Event) :=
  match Node.next_combination st.1 node st.2 with
  | .error err => .error err
  | .ok e => .ok (Node.set_probability st.1 node e prob, e)

/-- The test program from `Event e;` to the last `set_probability` for `sprinkler`: the nodes
and the event `e` at that point. -/
def test_population_sprinkler : Except runtime_error (Heap ℚ × Event) := do
  let h := test_linked_nodes
  let e := Event.new
  let e := e.set_node "Cloudy" "T"
  let h := Node.set_probability h 0 e (1 / 2)
  let (h, e) ← set_next_probability (h, e) 0 (1 / 2)
  let e := e.set_node "Sprinkler" "T"
  let h := Node.set_probability h 1 e (1 / 2)
  let st ← set_next_probability (h, e) 1 (1 / 2)
  let st ← set_next_probability st 1 (1 / 10)
  set_next_probability st 1 (9 / 10)

/-- The test program from `Event e;` to the last `set_probability` for `grasswet`: the nodes
and the event `e` at that point. -/
def test_population : Except runtime_error (Heap ℚ × Event) := do
  let (h, e) ← test_population_sprinkler
  let e := e.remove_node "Sprinkler"
  let e := e.set_node "Rain" "T"
  let h := Node.set_probability h 2 e (4 / 5)
  let st ← set_next_probability (h, e) 2 (1 / 5)
  let st ← set_next_probability st 2 (1 / 5)
  let (h, e) ← set_next_probability st 2 (4 / 5)
  let e := e.remove_node "Cloudy"
  let e := e.set_node "GrassWet" "T"
  let e := e.set_node "Sprinkler" "T"
  let h := Node.set_probability h 3 e (9 / 10)
  let st ← set_next_probability (h, e) 3 (9 / 10)
  let st ← set_next_probability st 3 0
  let st ← set_next_probability st 3 1
  let st ← set_next_probability st 3 (1 / 10)
  let st ← set_next_probability st 3 (1 / 10)
  let st ← set_next_probability st 3 (1 / 100)
  set_next_probability st 3 (99 / 100)

/-- The number `node.evaluate_marginal(state, evidence)` returns on the nodes a population
leaves; the evidence may be made from the event `e` of the program. -/
def marginal_after (population : Except runtime_error (Heap ℚ × Event)) (node : NodePtr)
    (state : String) (evidence : Event → Event) : Except runtime_error ℚ :=
  match population with
  | .error err => .error err
  | .ok (h, e) =>
    match Node.evaluate_marginal h node state (evidence e) with
    | .error err => .error err
    | .ok (returnval, _) => .ok returnval

/-- The keys, as canonical strings, and the values of the table of `node` after a population. -/
def table_after (population : Except runtime_error (Heap ℚ × Event)) (node : NodePtr) :
    Except runtime_error (List (String × ℚ)) :=
  match population with
  | .error err => .error err
  | .ok (h, _) => .ok ((h node).m_probabilities.map (fun i => (i.1.m_string_representation, i.2)))

/-- An example heap with a node that has no states: `N` at address 0 with the parents `A`
(address 1, no states) and `B` (address 2, states `T` and `F`), added in this order. -/
def stateless_heap : Heap ℚ := fun p =>
  match p with
  | 0 => { m_name := "N", m_probabilities := [], m_parents := [1, 2], m_children := [],
           m_states := ["T", "F"] }
  | 1 => { m_name := "A", m_probabilities := [], m_parents := [], m_children := [0],
           m_states := [] }
  | 2 => { m_name := "B", m_probabilities := [], m_parents := [], m_children := [0],
           m_states := ["T", "F"] }
  | _ => { m_name := "", m_probabilities := [], m_parents := [], m_children := [],
           m_states := [] }

/-- An example heap for the Markov blanket: `Cloudy` (address 0) with its child `Rain`
(address 1), both with their tables; a node `X` (address 2) whose parent (address 3) is also
named `X`; and a node `Y` (address 4) whose child (address 5) is also named `Y`. All nodes have
the states `T` and `F`. -/
def blanket_heap : Heap ℚ := fun p =>
  match p with
  | 0 => { m_name := "Cloudy",
           m_probabilities :=
             [(Event.build [("Cloudy", "F")], 1 / 2), (Event.build [("Cloudy", "T")], 1 / 2)],
           m_parents := [], m_children := [1], m_states := ["T", "F"] }
  | 1 => { m_name := "Rain",
           m_probabilities :=
             [(Event.build [("Cloudy", "F"), ("Rain", "F")], 4 / 5),
              (Event.build [("Cloudy", "F"), ("Rain", "T")], 1 / 5),
              (Event.build [("Cloudy", "T"), ("Rain", "F")], 1 / 5),
              (Event.build [("Cloudy", "T"), ("Rain", "T")], 4 / 5)],
           m_parents := [0], m_children := [], m_states := ["T", "F"] }
  | 2 => { m_name := "X",
           m_probabilities :=
             [(Event.build [("X", "F")], 1 / 4), (Event.build [("X", "T")], 3 / 4)],
           m_parents := [3], m_children := [], m_states := ["T", "F"] }
  | 3 => { m_name := "X", m_probabilities := [], m_parents := [], m_children := [2],
           m_states := ["T", "F"] }
  | 4 => { m_name := "Y",
           m_probabilities :=
             [(Event.build [("Y", "F")], 1 / 4), (Event.build [("Y", "T")], 3 / 4)],
           m_parents := [], m_children := [5], m_states := ["T", "F"] }
  | 5 => { m_name := "Y",
           m_probabilities :=
             [(Event.build [("Y", "F")], 1 / 2), (Event.build [("Y", "T")], 1 / 2)],
           m_parents := [4], m_children := [], m_states := ["T", "F"] }
  | _ => { m_name := "", m_probabilities := [], m_parents := [], m_children := [],
           m_states := [] }

/-! ## Sampling a state -/

namespace Node

variable {R : Type}

/-- The loop of `Node::get_random_state` over the states that are left, with the number `num`
that was drawn, the local `sum` and the local `random_state`. The heap is the one that
`evaluate_marginal` hands back. -/
def get_random_state_loop [Zero R] [Add R] [LT R] [DecidableRel (fun a b : R => a < b)]
    (this : NodePtr) (event : Event) (num : R) :
    Heap R → List String → R → String → Except runtime_error String
  | _, [], _, random_state => .ok random_state
  | h, iter :: rest, sum, _ =>
    let random_state := iter
    match evaluate_marginal h this random_state event with
    | .error err => .error err
    | .ok (value, h') =>
      let sum := sum + value
      if num < sum then .ok random_state
      else get_random_state_loop this event num h' rest sum random_state

/-- The method `Node::get_random_state`, with the number `num` that the source computes as
`((double)random()) / RAND_MAX` as an argument. -/
def get_random_state [Zero R] [Add R] [LT R] [DecidableRel (fun a b : R => a < b)]
    (h : Heap R) (this : NodePtr) (event : Event) (num : R) : Except runtime_error String :=
  get_random_state_loop this event num h (h this).m_states 0 ""

/-- The number that `evaluate_marginal` returns for a state; `0` where it throws. -/
def marginal_value [Zero R] [Add R] (h : Heap R) (this : NodePtr) (event : Event)
    (state : String) : R :=
  match evaluate_marginal h this state event with
  | .ok (value, _) => value
  | .error _ => 0

/-- The running sum of the values of `evaluate_marginal` over the declared states at the
positions `0, …, j`: the values are added one by one, in this order, to a sum that starts at
`0`. -/
def running_sum [Zero R] [Add R] (h : Heap R) (this : NodePtr) (event : Event) (j : Nat) : R :=
  (((h this).m_states.take (j + 1)).map (marginal_value h this event)).foldl
    (fun sum value => sum + value) 0

end Node

/-! ## The sort utility -/

namespace quicksort

/-- The read `arr[i]` of an `int` array. Every index that `sort` reads lies between `beg` and
`end` when `0 ≤ beg ≤ end < length`; a read elsewhere gives `0`. -/
def read (arr : List Int) (i : Int) : Int := arr.getD i.toNat 0

/-- The write `arr[i] = v`. -/
def write (arr : List Int) (i : Int) (v : Int) : List Int := arr.set i.toNat v

/-- The function `swap`, called with `&arr[a]` and `&arr[b]`. -/
def swap (arr : List Int) (a b : Int) : List Int :=
  let t := read arr a
  let arr := write arr a (read arr b)
  write arr b t

/-- The loop `while (l != r-1)` of `sort`: the array, `l` and `r` when the loop is left, and
`none` when `fuel` iterations were not enough. -/
def sort_loop (piv : Int) : Nat → List Int → Int → Int → Option (List Int × Int × Int)
  | fuel, arr, l, r =>
    if l ≠ r - 1 then
      match fuel with
      | 0 => none
      | fuel + 1 =>
        if read arr l ≤ piv then sort_loop piv fuel arr (l + 1) r
        else sort_loop piv fuel (swap arr l r) l (r - 1)
    else some (arr, l, r)

/-- The function `sort`: the array after the call, and `none` when `fuel` nested calls or
`fuel` iterations of a loop were not enough. -/
def sort : Nat → List Int → Int → Int → Option (List Int)
  | fuel, arr, beg, end_ =>
    if end_ > beg + 1 then
      match fuel with
      | 0 => none
      | fuel + 1 =>
        let piv := read arr beg
        let l := beg + 1
        let r := end_
        match sort_loop piv (fuel + 1) arr l r with
        | none => none
        | some (arr, l, r) =>
          let (arr, l, r) :=
            if read arr l ≤ piv && read arr r ≤ piv then (arr, r + 1, r)
            else if read arr l ≤ piv && read arr r > piv then (arr, l + 1, r - 1)
            else if read arr l > piv && read arr r ≤ piv then (swap arr l r, l + 1, r - 1)
            else (arr, l, l - 1)
          let arr := swap arr r beg
          let r := r - 1
          match sort fuel arr beg r with
          | none => none
          | some arr => sort fuel arr l end_
    else some arr

/-- The elements `arr[beg], …, arr[end]` are in non-decreasing order. -/
def sorted_range (arr : List Int) (beg end_ : Int) : Prop :=
  ∀ i : Int, beg ≤ i → i < end_ → read arr i ≤ read arr (i + 1)

end quicksort

/-! ## The mapping of an event -/

theorem ObservationMap.find_insert_or_assign (m : ObservationMap) (k v k' : String) :
    (m.insert_or_assign k v).find k' = if k = k' then some v else m.find k' := by
  induction m with
  | nil => simp [ObservationMap.insert_or_assign, ObservationMap.find]
  | cons hd tl ih =>
    obtain ⟨a, b⟩ := hd
    simp only [ObservationMap.insert_or_assign]
    by_cases h1 : k.data < a.data
    · simp only [h1, if_true, ObservationMap.find]
    · by_cases h2 : a.data < k.data
      · have hne : a ≠ k := by
          rintro rfl
          exact lt_irrefl _ h2
        simp only [h1, h2, if_true, if_false, ObservationMap.find, ih]
        by_cases h3 : k = k'
        · subst h3
          simp [hne]
        · simp [h3]
      · have hak : a = k := String.ext (le_antisymm (not_lt.1 h1) (not_lt.1 h2))
        subst hak
        simp only [h1, if_false, ObservationMap.find]
        by_cases h3 : a = k' <;> simp [h3]

theorem ObservationMap.lt_of_mem_insert_or_assign {m : ObservationMap} {k v : String}
    {x : String × String} {a : String}
    (hx : x ∈ m.insert_or_assign k v) (hk : a.data < k.data)
    (hm : ∀ y ∈ m, a.data < y.1.data) : a.data < x.1.data := by
  induction m with
  | nil =>
    simp [ObservationMap.insert_or_assign] at hx
    subst hx
    exact hk
  | cons hd tl ih =>
    obtain ⟨c, d⟩ := hd
    simp only [ObservationMap.insert_or_assign] at hx
    split_ifs at hx with h1 h2
    · rcases List.mem_cons.1 hx with rfl | hx
      · exact hk
      · exact hm _ hx
    · rcases List.mem_cons.1 hx with rfl | hx
      · exact hm _ (List.mem_cons_self _ _)
      · exact ih hx (fun y hy => hm y (List.mem_cons_of_mem _ hy))
    · rcases List.mem_cons.1 hx with rfl | hx
      · exact hm (c, d) (List.mem_cons_self _ _)
      · exact hm _ (List.mem_cons_of_mem _ hx)

theorem ObservationMap.ordered_insert_or_assign {m : ObservationMap} (hm : m.ordered)
    (k v : String) : (m.insert_or_assign k v).ordered := by
  induction m with
  | nil => simp [ObservationMap.insert_or_assign, ObservationMap.ordered]
  | cons hd tl ih =>
    obtain ⟨c, d⟩ := hd
    have hm' := List.pairwise_cons.1 hm
    simp only [ObservationMap.insert_or_assign]
    split_ifs with h1 h2
    · refine List.pairwise_cons.2 ⟨?_, hm⟩
      intro y hy
      rcases List.mem_cons.1 hy with rfl | hy
      · exact h1
      · exact lt_trans h1 (hm'.1 y hy)
    · refine List.pairwise_cons.2 ⟨?_, ih hm'.2⟩
      intro y hy
      exact ObservationMap.lt_of_mem_insert_or_assign hy h2 hm'.1
    · exact List.pairwise_cons.2 ⟨hm'.1, hm'.2⟩

theorem ObservationMap.erase_sublist (m : ObservationMap) (k : String) :
    (m.erase k).Sublist m := by
  induction m with
  | nil => simp [ObservationMap.erase]
  | cons hd tl ih =>
    obtain ⟨c, d⟩ := hd
    simp only [ObservationMap.erase]
    split_ifs
    · exact List.sublist_cons_self _ _
    · exact ih.cons₂ _

theorem ObservationMap.ordered_erase {m : ObservationMap} (hm : m.ordered) (k : String) :
    (m.erase k).ordered :=
  List.Pairwise.sublist (ObservationMap.erase_sublist m k) hm

theorem ObservationMap.find_eq_none_iff (m : ObservationMap) (k : String) :
    m.find k = none ↔ ∀ v, (k, v) ∉ m := by
  induction m with
  | nil => simp [ObservationMap.find]
  | cons hd tl ih =>
    obtain ⟨c, d⟩ := hd
    simp only [ObservationMap.find]
    split_ifs with h
    · subst h
      simp only [reduceCtorEq, false_iff, not_forall, not_not]
      exact ⟨d, List.mem_cons_self _ _⟩
    · rw [ih]
      constructor
      · intro hv v hmem
        rcases List.mem_cons.1 hmem with heq | hmem
        · exact h (by injection heq with h1 h2; exact h1.symm)
        · exact hv v hmem
      · intro hv v hmem
        exact hv v (List.mem_cons_of_mem _ hmem)

theorem ObservationMap.find_eq_some_iff {m : ObservationMap} (hm : m.ordered) (k v : String) :
    m.find k = some v ↔ (k, v) ∈ m := by
  induction m with
  | nil => simp [ObservationMap.find]
  | cons hd tl ih =>
    obtain ⟨c, d⟩ := hd
    have hm' := List.pairwise_cons.1 hm
    simp only [ObservationMap.find]
    split_ifs with h
    · subst h
      constructor
      · intro hv
        injection hv with hv
        subst hv
        exact List.mem_cons_self _ _
      · intro hmem
        rcases List.mem_cons.1 hmem with heq | hmem
        · injection heq with h1 h2
          rw [h2]
        · exact absurd (hm'.1 _ hmem) (lt_irrefl _)
    · rw [ih hm'.2]
      constructor
      · exact fun hmem => List.mem_cons_of_mem _ hmem
      · intro hmem
        rcases List.mem_cons.1 hmem with heq | hmem
        · exact absurd (by injection heq with h1 h2; exact h1.symm) h
        · exact hmem

theorem ObservationMap.ordered_nodup {m : ObservationMap} (hm : m.ordered) : m.Nodup := by
  refine List.Pairwise.imp ?_ hm
  intro a b hab heq
  subst heq
  exact lt_irrefl _ hab

theorem ObservationMap.eq_of_mem_iff {m₁ m₂ : ObservationMap} (h₁ : m₁.ordered)
    (h₂ : m₂.ordered) (h : ∀ x, x ∈ m₁ ↔ x ∈ m₂) : m₁ = m₂ := by
  have hperm : m₁.Perm m₂ :=
    (List.perm_ext_iff_of_nodup (ObservationMap.ordered_nodup h₁)
      (ObservationMap.ordered_nodup h₂)).2 h
  haveI : IsAntisymm (String × String) (fun a b => a.1.data < b.1.data) :=
    ⟨fun a b hab hba => absurd (lt_trans hab hba) (lt_irrefl _)⟩
  exact List.eq_of_perm_of_sorted hperm h₁ h₂

theorem ObservationMap.eq_of_find_eq {m₁ m₂ : ObservationMap} (h₁ : m₁.ordered)
    (h₂ : m₂.ordered) (h : ∀ k, m₁.find k = m₂.find k) : m₁ = m₂ := by
  refine ObservationMap.eq_of_mem_iff h₁ h₂ ?_
  rintro ⟨k, v⟩
  rw [← ObservationMap.find_eq_some_iff h₁, ← ObservationMap.find_eq_some_iff h₂, h k]

/-! ## The canonical string -/

theorem intercalate_go_cons (s : String) (as : List String) (acc a : String) :
    String.intercalate.go acc s (a :: as) = acc ++ s ++ String.intercalate.go a s as := by
  induction as generalizing acc a with
  | nil => simp [String.intercalate.go]
  | cons b bs ih =>
    have h1 : String.intercalate.go acc s (a :: b :: bs)
        = String.intercalate.go (acc ++ s ++ a) s (b :: bs) := rfl
    rw [h1, ih (acc ++ s ++ a) b, ih a b]
    simp only [String.append_assoc]

theorem canonical_string_nil : canonical_string [] = "" := rfl

theorem canonical_string_singleton (x : String × String) :
    canonical_string [x] = x.1 ++ " = " ++ x.2 := rfl

theorem canonical_string_cons_cons (x y : String × String) (r : ObservationMap) :
    canonical_string (x :: y :: r) = x.1 ++ " = " ++ x.2 ++ ", " ++ canonical_string (y :: r) := by
  simp only [canonical_string, List.map_cons, String.intercalate]
  rw [intercalate_go_cons]

theorem generate_fold_eq_go (l : ObservationMap) (acc : String) (hacc : 0 < acc.length) :
    l.foldl
        (fun repr iter =>
          (if repr.length > 0 then repr ++ ", " else repr) ++ (iter.1 ++ " = " ++ iter.2))
        acc
      = String.intercalate.go acc ", " (l.map (fun kv => kv.1 ++ " = " ++ kv.2)) := by
  induction l generalizing acc with
  | nil => simp [String.intercalate.go]
  | cons hd tl ih =>
    simp only [List.foldl_cons, List.map_cons, String.intercalate.go]
    have hgt : acc.length > 0 := hacc
    rw [if_pos hgt, ih]
    simp only [String.length_append]
    omega

theorem generate_string_representation_eq (e : Event) :
    e.generate_string_representation.m_string_representation
      = canonical_string e.m_observations := by
  obtain ⟨m, s⟩ := e
  cases m with
  | nil => rfl
  | cons hd tl =>
    simp only [Event.generate_string_representation, List.foldl_cons, canonical_string,
      List.map_cons, String.intercalate]
    have h0 : ¬ ("".length > 0) := by decide
    rw [if_neg h0, String.empty_append, generate_fold_eq_go]
    simp only [String.length_append]
    have h3 : " = ".length = 3 := by decide
    omega

theorem generate_string_representation_observations (e : Event) :
    e.generate_string_representation.m_observations = e.m_observations := rfl

theorem Event.set_node_string (e : Event) (n s : String) :
    (e.set_node n s).m_string_representation
      = canonical_string (e.m_observations.insert_or_assign n s) :=
  generate_string_representation_eq _

theorem Event.set_node_observations (e : Event) (n s : String) :
    (e.set_node n s).m_observations = e.m_observations.insert_or_assign n s := rfl

theorem Event.reachable_inv {e : Event} (h : e.Reachable) :
    e.m_string_representation = canonical_string e.m_observations ∧ e.m_observations.ordered := by
  induction h with
  | new => exact ⟨rfl, List.Pairwise.nil⟩
  | copy e _ ih => exact ⟨generate_string_representation_eq _, ih.2⟩
  | assign a b _ _ _ ihb => exact ⟨generate_string_representation_eq _, ihb.2⟩
  | self_assign a _ ih => exact ih
  | set_node e n s _ ih =>
    exact ⟨generate_string_representation_eq _, ObservationMap.ordered_insert_or_assign ih.2 n s⟩
  | remove_node e n _ ih =>
    exact ⟨generate_string_representation_eq _, ObservationMap.ordered_erase ih.2 n⟩
  | clear e _ _ => exact ⟨generate_string_representation_eq _, List.Pairwise.nil⟩

theorem Event.build_reachable (calls : List (String × String)) : (Event.build calls).Reachable := by
  unfold Event.build
  have key : ∀ (cs : List (String × String)) (e : Event), e.Reachable →
      (cs.foldl (fun e c => e.set_node c.1 c.2) e).Reachable := by
    intro cs
    induction cs with
    | nil => intro e he; exact he
    | cons c cs ih => intro e he; exact ih _ (Event.Reachable.set_node e c.1 c.2 he)
  exact key calls _ Event.Reachable.new

/-- Two events that satisfy the invariant and hold the same pairs are the same event. -/
theorem Event.ext_of_mem_iff {a b : Event}
    (ha : a.m_string_representation = canonical_string a.m_observations ∧ a.m_observations.ordered)
    (hb : b.m_string_representation = canonical_string b.m_observations ∧ b.m_observations.ordered)
    (h : ∀ x, x ∈ a.m_observations ↔ x ∈ b.m_observations) : a = b := by
  have hm : a.m_observations = b.m_observations := ObservationMap.eq_of_mem_iff ha.2 hb.2 h
  obtain ⟨ma, sa⟩ := a
  obtain ⟨mb, sb⟩ := b
  simp only at hm ha hb
  subst hm
  rw [Event.mk.injEq]
  exact ⟨rfl, ha.1.trans hb.1.symm⟩

/-! ## Reading the canonical string back -/

theorem split_at_first (c : Char) (a a' x x' : List Char) (ha : c ∉ a) (ha' : c ∉ a')
    (h : a ++ c :: x = a' ++ c :: x') : a = a' ∧ x = x' := by
  induction a generalizing a' with
  | nil =>
    cases a' with
    | nil => simpa using h
    | cons d ds =>
      simp only [List.nil_append, List.cons_append, List.cons.injEq] at h
      exact absurd (h.1 ▸ List.mem_cons_self _ _) ha'
  | cons b bs ih =>
    cases a' with
    | nil =>
      simp only [List.nil_append, List.cons_append, List.cons.injEq] at h
      exact absurd (h.1 ▸ List.mem_cons_self _ _) ha
    | cons d ds =>
      simp only [List.cons_append, List.cons.injEq] at h
      obtain ⟨h1, h2⟩ := h
      have := ih ds (fun hc => ha (List.mem_cons_of_mem _ hc))
        (fun hc => ha' (List.mem_cons_of_mem _ hc)) h2
      exact ⟨by rw [h1, this.1], this.2⟩

/-- The characters of the canonical string of a non-empty mapping. -/
theorem canonical_string_data (x : String × String) (r : ObservationMap) :
    (canonical_string (x :: r)).data
      = (x.1.data ++ [' ']) ++ '=' :: ' ' :: (x.2.data ++
          (match r with
           | [] => []
           | y :: r' => ',' :: ' ' :: (canonical_string (y :: r')).data)) := by
  cases r with
  | nil =>
    rw [canonical_string_singleton]
    simp only [String.data_append, List.append_assoc, List.append_nil]
    rfl
  | cons y r' =>
    rw [canonical_string_cons_cons]
    simp only [String.data_append, List.append_assoc]
    rfl

theorem canonical_string_injective (l l' : ObservationMap)
    (hl : ∀ kv ∈ l, '=' ∉ kv.1.data ∧ ',' ∉ kv.2.data)
    (hl' : ∀ kv ∈ l', '=' ∉ kv.1.data ∧ ',' ∉ kv.2.data)
    (h : canonical_string l = canonical_string l') : l = l' := by
  induction l generalizing l' with
  | nil =>
    cases l' with
    | nil => rfl
    | cons x' r' =>
      have hd := congrArg String.data h
      rw [canonical_string_data] at hd
      have hlen := congrArg List.length hd
      simp only [canonical_string_nil, List.length_append, List.length_cons, List.length_nil,
        List.length_singleton] at hlen
      have h0 : "".data.length = 0 := rfl
      omega
  | cons x r ih =>
    cases l' with
    | nil =>
      have hd := congrArg String.data h
      rw [canonical_string_data] at hd
      have hlen := congrArg List.length hd
      simp only [canonical_string_nil, List.length_append, List.length_cons, List.length_nil,
        List.length_singleton] at hlen
      have h0 : "".data.length = 0 := rfl
      omega
    | cons x' r' =>
      have hd := congrArg String.data h
      rw [canonical_string_data, canonical_string_data] at hd
      have hx := (hl x (List.mem_cons_self _ _))
      have hx' := (hl' x' (List.mem_cons_self _ _))
      have hsp : ∀ (n : List Char), '=' ∉ n → '=' ∉ n ++ [' '] := by
        intro n hn hmem
        rcases List.mem_append.1 hmem with hm | hm
        · exact hn hm
        · simp at hm
      obtain ⟨h1, h2⟩ := split_at_first '=' _ _ _ _ (hsp _ hx.1) (hsp _ hx'.1) hd
      have hname : x.1 = x'.1 := String.ext (List.append_cancel_right h1)
      simp only [List.cons.injEq, true_and] at h2
      have hrest : x.2 = x'.2 ∧ r = r' := by
        cases r with
        | nil =>
          cases r' with
          | nil =>
            simp only [List.append_nil] at h2
            exact ⟨String.ext h2, rfl⟩
          | cons y' s' =>
            simp only [List.append_nil] at h2
            exfalso
            apply hx.2
            rw [h2]
            simp
        | cons y s =>
          cases r' with
          | nil =>
            simp only [List.append_nil] at h2
            exfalso
            apply hx'.2
            rw [← h2]
            simp
          | cons y' s' =>
            simp only at h2
            obtain ⟨h3, h4⟩ := split_at_first ',' _ _ _ _ hx.2 hx'.2 h2
            simp only [List.cons.injEq, true_and] at h4
            refine ⟨String.ext h3, ?_⟩
            exact ih (y' :: s') (fun kv hkv => hl kv (List.mem_cons_of_mem _ hkv))
              (fun kv hkv => hl' kv (List.mem_cons_of_mem _ hkv)) (String.ext h4)
      obtain ⟨a, b⟩ := x
      obtain ⟨a', b'⟩ := x'
      simp only at hname hrest
      rw [hname, hrest.1, hrest.2]

/-! ## Claims about `Event` -/

/-- C7: two events built by `set_node` calls, in any order and with any overwrites, that end up
holding the same (name, state) pairs have the same canonical string and compare equal: neither
is less than the other. -/
theorem Event.equal_of_same_pairs (ca cb : List (String × String))
    (h : ∀ n s, (n, s) ∈ (Event.build ca).m_observations
      ↔ (n, s) ∈ (Event.build cb).m_observations) :
    (Event.build ca).m_string_representation = (Event.build cb).m_string_representation
      ∧ (Event.build ca).operator_lt (Event.build cb) = false
      ∧ (Event.build cb).operator_lt (Event.build ca) = false := by
  have heq : Event.build ca = Event.build cb :=
    Event.ext_of_mem_iff (Event.reachable_inv (Event.build_reachable ca))
      (Event.reachable_inv (Event.build_reachable cb)) (fun x => h x.1 x.2)
  rw [heq]
  refine ⟨rfl, ?_, ?_⟩ <;> simp [Event.operator_lt]

theorem Event.equal_of_same_pairs_witness :
    (∀ n s, (n, s) ∈ (Event.build [("b", "2"), ("a", "0"), ("a", "1")]).m_observations
      ↔ (n, s) ∈ (Event.build [("a", "1"), ("b", "3"), ("b", "2")]).m_observations)
    ∧ ((Event.build [("b", "2"), ("a", "0"), ("a", "1")]).m_string_representation
        = (Event.build [("a", "1"), ("b", "3"), ("b", "2")]).m_string_representation
      ∧ (Event.build [("b", "2"), ("a", "0"), ("a", "1")]).operator_lt
          (Event.build [("a", "1"), ("b", "3"), ("b", "2")]) = false
      ∧ (Event.build [("a", "1"), ("b", "3"), ("b", "2")]).operator_lt
          (Event.build [("b", "2"), ("a", "0"), ("a", "1")]) = false) :=
  have hobs : (Event.build [("b", "2"), ("a", "0"), ("a", "1")]).m_observations
      = (Event.build [("a", "1"), ("b", "3"), ("b", "2")]).m_observations := by decide
  ⟨fun _ _ => by rw [hobs],
   Event.equal_of_same_pairs [("b", "2"), ("a", "0"), ("a", "1")]
     [("a", "1"), ("b", "3"), ("b", "2")] (fun _ _ => by rw [hobs])⟩

/-- C8, as stated, fails: the event holding `a ↦ "b, c = d"` and the event holding `a ↦ "b"`,
`c ↦ "d"` have the same canonical string `a = b, c = d`, compare equal, and hold different
pairs. -/
theorem Event.canonical_string_collision :
    (Event.build [("a", "b, c = d")]).m_string_representation
        = (Event.build [("a", "b"), ("c", "d")]).m_string_representation
      ∧ (Event.build [("a", "b, c = d")]).operator_lt (Event.build [("a", "b"), ("c", "d")]) = false
      ∧ (Event.build [("a", "b"), ("c", "d")]).operator_lt (Event.build [("a", "b, c = d")]) = false
      ∧ ("c", "d") ∈ (Event.build [("a", "b"), ("c", "d")]).m_observations
      ∧ ("c", "d") ∉ (Event.build [("a", "b, c = d")]).m_observations := by
  decide

/-- C8, amended: for events in which no name contains the character `=` and no state contains
the character `,`, the canonical string determines the assignment: two such events with the same
canonical string hold exactly the same (name, state) pairs. -/
theorem Event.same_pairs_of_same_string (A B : Event) (hA : A.Reachable) (hB : B.Reachable)
    (hcA : ∀ kv ∈ A.m_observations, '=' ∉ kv.1.data ∧ ',' ∉ kv.2.data)
    (hcB : ∀ kv ∈ B.m_observations, '=' ∉ kv.1.data ∧ ',' ∉ kv.2.data)
    (h : A.m_string_representation = B.m_string_representation) :
    ∀ n s, (n, s) ∈ A.m_observations ↔ (n, s) ∈ B.m_observations := by
  have hm : A.m_observations = B.m_observations := by
    apply canonical_string_injective _ _ hcA hcB
    rw [← (Event.reachable_inv hA).1, ← (Event.reachable_inv hB).1, h]
  intro n s
  rw [hm]

theorem Event.same_pairs_of_same_string_witness :
    (Event.build [("b", "2"), ("a", "1")]).Reachable
    ∧ (Event.build [("a", "1"), ("b", "2")]).Reachable
    ∧ (∀ kv ∈ (Event.build [("b", "2"), ("a", "1")]).m_observations,
        '=' ∉ kv.1.data ∧ ',' ∉ kv.2.data)
    ∧ (∀ kv ∈ (Event.build [("a", "1"), ("b", "2")]).m_observations,
        '=' ∉ kv.1.data ∧ ',' ∉ kv.2.data)
    ∧ (Event.build [("b", "2"), ("a", "1")]).m_string_representation
        = (Event.build [("a", "1"), ("b", "2")]).m_string_representation
    ∧ (∀ n s, (n, s) ∈ (Event.build [("b", "2"), ("a", "1")]).m_observations
        ↔ (n, s) ∈ (Event.build [("a", "1"), ("b", "2")]).m_observations) :=
  ⟨Event.build_reachable _, Event.build_reachable _, by decide, by decide, by decide,
   Event.same_pairs_of_same_string _ _ (Event.build_reachable _) (Event.build_reachable _)
     (by decide) (by decide) (by decide)⟩

/-- C9: every event a program can hold (made by the default or the copy constructor, changed by
copy assignment, `set_node`, `remove_node` or `clear`) stores as its canonical string the
rendering of its current mapping: the entries in ascending order of name, each written
`name = state`, joined by `, `; the empty string for the empty mapping. -/
theorem Event.canonical_string_invariant (e : Event) (h : e.Reachable) :
    e.m_string_representation
        = ", ".intercalate (e.m_observations.map (fun kv => kv.1 ++ " = " ++ kv.2))
      ∧ e.m_observations.Pairwise (fun a b => a.1.data < b.1.data)
      ∧ (e.m_observations = [] → e.m_string_representation = "") := by
  have hinv := Event.reachable_inv h
  refine ⟨hinv.1, hinv.2, ?_⟩
  intro hnil
  rw [hinv.1, hnil]
  rfl

theorem Event.canonical_string_invariant_witness :
    (((Event.new.set_node "b" "2").set_node "a" "1").remove_node "c").copy.Reachable
    ∧ (((Event.new.set_node "b" "2").set_node "a" "1").remove_node "c").copy.m_string_representation
        = "a = 1, b = 2"
    ∧ ((((Event.new.set_node "b" "2").set_node "a" "1").remove_node "c").copy.m_string_representation
        = ", ".intercalate
            ((((Event.new.set_node "b" "2").set_node "a" "1").remove_node "c").copy.m_observations.map
              (fun kv => kv.1 ++ " = " ++ kv.2))
      ∧ (((Event.new.set_node "b" "2").set_node "a" "1").remove_node "c").copy.m_observations.Pairwise
          (fun a b => a.1.data < b.1.data)
      ∧ ((((Event.new.set_node "b" "2").set_node "a" "1").remove_node "c").copy.m_observations = [] →
          (((Event.new.set_node "b" "2").set_node "a" "1").remove_node "c").copy.m_string_representation
            = "")) :=
  have hr : (((Event.new.set_node "b" "2").set_node "a" "1").remove_node "c").copy.Reachable :=
    Event.Reachable.copy _ (Event.Reachable.remove_node _ _
      (Event.Reachable.set_node _ _ _ (Event.Reachable.set_node _ _ _ Event.Reachable.new)))
  ⟨hr, by decide, Event.canonical_string_invariant _ hr⟩

/-- C10: `get_node_state(name)` fails, with the error `Invalid node`, exactly when `name` is not
present in the event, and returns the state mapped to `name` when it is; `has_node` and
`node_has_state` are total, `has_node(name)` is true exactly when `name` is present and
`node_has_state(name, s)` exactly when `name` is present and mapped to `s`. -/
theorem Event.lookup_spec (e : Event) (name : String) (hord : e.m_observations.ordered) :
    (e.get_node_state name = .error ⟨"Invalid node"⟩ ↔ ¬ ∃ s, (name, s) ∈ e.m_observations)
      ∧ (∀ err, e.get_node_state name = .error err →
          err = ⟨"Invalid node"⟩ ∧ ¬ ∃ s, (name, s) ∈ e.m_observations)
      ∧ (∀ s, e.get_node_state name = .ok s ↔ (name, s) ∈ e.m_observations)
      ∧ (e.has_node name = true ↔ ∃ s, (name, s) ∈ e.m_observations)
      ∧ (∀ s, e.node_has_state name s = true ↔ (name, s) ∈ e.m_observations) := by
  have hsome := ObservationMap.find_eq_some_iff hord name
  have hnone := ObservationMap.find_eq_none_iff e.m_observations name
  simp only [Event.get_node_state, Event.has_node, Event.node_has_state]
  cases hf : e.m_observations.find name with
  | none =>
    have hno : ∀ v, (name, v) ∉ e.m_observations := hnone.1 hf
    refine ⟨?_, ?_, ?_, ?_, ?_⟩
    · simp only [true_iff, not_exists]
      exact hno
    · intro err herr
      injection herr with herr
      exact ⟨herr.symm, fun ⟨s, hs⟩ => hno s hs⟩
    · intro s
      simp only [reduceCtorEq, false_iff]
      exact hno s
    · simp only [Bool.false_eq_true, false_iff, not_exists]
      exact hno
    · intro s
      simp only [Bool.false_eq_true, false_iff]
      exact hno s
  | some v =>
    have hv : (name, v) ∈ e.m_observations := (hsome v).1 hf
    have huniq : ∀ s, (name, s) ∈ e.m_observations ↔ v = s := by
      intro s
      rw [← hsome s, hf]
      simp
    refine ⟨?_, ?_, ?_, ?_, ?_⟩
    · simp only [reduceCtorEq, false_iff, not_not]
      exact ⟨v, hv⟩
    · intro err herr
      simp at herr
    · intro s
      rw [huniq s]
      simp
    · simp only [true_iff]
      exact ⟨v, hv⟩
    · intro s
      rw [huniq s]
      by_cases hvs : v = s <;> simp [hvs]

theorem Event.lookup_spec_witness :
    ((Event.new.set_node "Rain" "T").set_node "Cloudy" "F").m_observations.ordered
    ∧ ((Event.new.set_node "Rain" "T").set_node "Cloudy" "F").get_node_state "Rain" = .ok "T"
    ∧ ((Event.new.set_node "Rain" "T").set_node "Cloudy" "F").get_node_state "Sprinkler"
        = .error ⟨"Invalid node"⟩
    ∧ (∀ s, ((Event.new.set_node "Rain" "T").set_node "Cloudy" "F").node_has_state "Rain" s = true
        ↔ ("Rain", s) ∈ ((Event.new.set_node "Rain" "T").set_node "Cloudy" "F").m_observations) :=
  have hord : ((Event.new.set_node "Rain" "T").set_node "Cloudy" "F").m_observations.ordered :=
    (Event.reachable_inv
      (Event.Reachable.set_node _ _ _ (Event.Reachable.set_node _ _ _ Event.Reachable.new))).2
  ⟨hord, by decide, by decide,
   (Event.lookup_spec ((Event.new.set_node "Rain" "T").set_node "Cloudy" "F") "Rain" hord).2.2.2.2⟩

/-! ## Filtering the probability table -/

namespace Node

variable {R : Type}

theorem node_has_state_eq (k : Event) (n s : String) :
    k.node_has_state n s = decide (k.get_node_state n = .ok s) := by
  have key : ∀ o : Option String,
      (match o with
        | some s₁ => if s₁ = s then true else false
        | none => false)
      = decide ((match o with
          | none => (Except.error ⟨"Invalid node"⟩ : Except runtime_error String)
          | some st => Except.ok st) = Except.ok s) := by
    intro o
    cases o with
    | none => simp
    | some v => by_cases hv : v = s <;> simp [hv]
  exact key _

theorem has_node_eq_true_iff (k : Event) (n : String) :
    k.has_node n = true ↔ ∃ s, k.get_node_state n = .ok s := by
  simp only [Event.has_node, Event.get_node_state]
  cases k.m_observations.find n with
  | none => simp
  | some v => simp

theorem has_node_eq_false_iff (k : Event) (n : String) :
    k.has_node n = false ↔ k.get_node_state n = .error ⟨"Invalid node"⟩ := by
  simp only [Event.has_node, Event.get_node_state]
  cases k.m_observations.find n with
  | none => simp
  | some v => simp

theorem copy_node_has_state (k : Event) (n s : String) :
    (Event.operator_assign Event.new k false).node_has_state n s = k.node_has_state n s := rfl

theorem erase_other_states_eq (n s : String) (prob : ProbabilityMap R) :
    erase_other_states n s prob = prob.filter (fun i => i.1.node_has_state n s) := by
  induction prob with
  | nil => rfl
  | cons i rest ih =>
    simp only [erase_other_states, copy_node_has_state, ih, List.filter_cons]
    cases i.1.node_has_state n s <;> simp

theorem erase_other_parent_states_eq (pn ps : String) (evidence : Event)
    (hev : evidence.get_node_state pn = .ok ps) (prob : ProbabilityMap R) :
    erase_other_parent_states pn evidence prob
      = .ok (prob.filter (fun i => i.1.node_has_state pn ps)) := by
  induction prob with
  | nil => rfl
  | cons i rest ih =>
    simp only [erase_other_parent_states, copy_node_has_state, hev, ih, List.filter_cons]
    by_cases hb : i.1.node_has_state pn ps = true <;> simp [hb]

/-- With every parent present in the evidence the loop over the parents is one filter. -/
theorem remove_irrelevant_parent_states_ok (h : Heap R) (evidence : Event) (ps : List NodePtr)
    (hev : ∀ p ∈ ps, evidence.has_node (h p).m_name = true) (prob : ProbabilityMap R) :
    remove_irrelevant_parent_states h evidence ps prob
      = .ok (prob.filter (fun i => ps.all (fun p =>
          match evidence.get_node_state (h p).m_name with
          | .ok s => decide (i.1.get_node_state (h p).m_name = .ok s)
          | .error _ => false))) := by
  induction ps generalizing prob with
  | nil => simp [remove_irrelevant_parent_states]
  | cons p rest ih =>
    have hp := hev p (List.mem_cons_self _ _)
    obtain ⟨s, hs⟩ := (has_node_eq_true_iff _ _).1 hp
    simp only [remove_irrelevant_parent_states, get_name, hp, Bool.not_true, Bool.false_eq_true,
      if_false, erase_other_parent_states_eq _ s evidence hs]
    rw [ih (fun q hq => hev q (List.mem_cons_of_mem _ hq)), List.filter_filter]
    simp only [List.all_cons, hs, node_has_state_eq]
    congr 2
    funext i
    rw [Bool.and_comm]

theorem remove_irrelevant_parent_states_error (h : Heap R) (evidence : Event)
    (ps : List NodePtr) (hev : ∃ p ∈ ps, evidence.has_node (h p).m_name = false)
    (prob : ProbabilityMap R) :
    remove_irrelevant_parent_states h evidence ps prob
      = .error ⟨"Marginal cannot be evaluated"⟩ := by
  induction ps generalizing prob with
  | nil =>
    obtain ⟨p, hp, _⟩ := hev
    simp at hp
  | cons p rest ih =>
    by_cases hp : evidence.has_node (h p).m_name = true
    · obtain ⟨s, hs⟩ := (has_node_eq_true_iff _ _).1 hp
      simp only [remove_irrelevant_parent_states, get_name, hp, Bool.not_true,
        Bool.false_eq_true, if_false, erase_other_parent_states_eq _ s evidence hs]
      apply ih
      obtain ⟨q, hq, hq'⟩ := hev
      rcases List.mem_cons.1 hq with rfl | hq
      · rw [hp] at hq'
        exact absurd hq' (by simp)
      · exact ⟨q, hq, hq'⟩
    · simp only [remove_irrelevant_parent_states, get_name]
      simp [hp]

theorem can_be_evaluated_loop_eq (h : Heap R) (evidence : Event) (ps : List NodePtr) :
    can_be_evaluated_loop h evidence ps = ps.all (fun p => evidence.has_node (h p).m_name) := by
  induction ps with
  | nil => rfl
  | cons p rest ih =>
    simp only [can_be_evaluated_loop, get_name, ih, List.all_cons]
    cases evidence.has_node (h p).m_name <;> simp

theorem can_be_evaluated_eq (h : Heap R) (this : NodePtr) (evidence : Event) :
    can_be_evaluated h this evidence
      = (h this).m_parents.all (fun p => evidence.has_node (h p).m_name) := by
  simp only [can_be_evaluated, can_be_evaluated_loop_eq]
  cases hps : (h this).m_parents with
  | nil => simp
  | cons p rest => simp

theorem foldl_add_eq_sum [AddMonoid R] (l : ProbabilityMap R) (acc : R) :
    l.foldl (fun returnval iter => returnval + iter.2) acc = acc + (l.map Prod.snd).sum := by
  induction l generalizing acc with
  | nil => simp
  | cons i rest ih => simp [ih, add_assoc]

/-- With every parent present in the evidence, `evaluate_marginal` adds the values of the
entries that `key_matches` keeps, one by one in the order of the table, to a sum that starts at
`0`. No law of the arithmetic is used. -/
theorem evaluate_marginal_foldl [Zero R] [Add R] (h : Heap R) (this : NodePtr) (state : String)
    (evidence : Event)
    (hev : ∀ p ∈ (h this).m_parents, evidence.has_node (h p).m_name = true) :
    evaluate_marginal h this state evidence
      = .ok (((h this).m_probabilities.filter
          (fun i => key_matches h this state evidence i.1)).foldl
            (fun returnval iter => returnval + iter.2) 0, h) := by
  have hfilter : (h this).m_probabilities.filter
        (fun a => ((h this).m_parents.all fun p =>
            match evidence.get_node_state (h p).m_name with
            | Except.ok s => decide (a.1.get_node_state (h p).m_name = Except.ok s)
            | Except.error _ => false) &&
          a.1.node_has_state (h this).m_name state)
      = (h this).m_probabilities.filter (fun i => key_matches h this state evidence i.1) := by
    apply List.filter_congr
    intro x _
    simp only [key_matches, node_has_state_eq]
    rw [Bool.and_comm]
  simp only [evaluate_marginal, remove_irrelevant_states, erase_other_states_eq,
    remove_irrelevant_parent_states_ok h evidence _ hev, List.filter_filter, hfilter]

theorem evaluate_marginal_ok [AddMonoid R] (h : Heap R) (this : NodePtr) (state : String)
    (evidence : Event)
    (hev : ∀ p ∈ (h this).m_parents, evidence.has_node (h p).m_name = true) :
    evaluate_marginal h this state evidence
      = .ok ((((h this).m_probabilities.filter
          (fun i => key_matches h this state evidence i.1)).map Prod.snd).sum, h) := by
  have hfilter : (h this).m_probabilities.filter
        (fun a => ((h this).m_parents.all fun p =>
            match evidence.get_node_state (h p).m_name with
            | Except.ok s => decide (a.1.get_node_state (h p).m_name = Except.ok s)
            | Except.error _ => false) &&
          a.1.node_has_state (h this).m_name state)
      = (h this).m_probabilities.filter (fun i => key_matches h this state evidence i.1) := by
    apply List.filter_congr
    intro x _
    simp only [key_matches, node_has_state_eq]
    rw [Bool.and_comm]
  simp only [evaluate_marginal, remove_irrelevant_states, erase_other_states_eq,
    remove_irrelevant_parent_states_ok h evidence _ hev, List.filter_filter, foldl_add_eq_sum,
    zero_add, hfilter]

theorem key_matches_iff (h : Heap R) (this : NodePtr) (state : String) (evidence key : Event) :
    key_matches h this state evidence key = true ↔
      key.get_node_state (h this).m_name = .ok state ∧
      ∀ p ∈ (h this).m_parents, ∃ s, evidence.get_node_state (h p).m_name = .ok s ∧
        key.get_node_state (h p).m_name = .ok s := by
  simp only [key_matches, Bool.and_eq_true, decide_eq_true_eq, List.all_eq_true]
  refine and_congr Iff.rfl (forall_congr' fun p => forall_congr' fun _ => ?_)
  cases hev : evidence.get_node_state (h p).m_name with
  | error err => simp
  | ok s => simp

/-- C4: when every parent has a state in the evidence, `evaluate_marginal(state, evidence)`
returns the sum of the probabilities of exactly those table entries whose key gives this node
the value `state` and every parent the state the evidence gives that parent: the sum the code
forms, which starts at `0` and adds the probabilities one by one in the order of the table, with
no law of the arithmetic assumed. A key that lacks the node or a parent is never among them,
whether a key is among them depends only on what it gives the node and the parents, and the
heap, so the node's stored table, is as before. -/
theorem evaluate_marginal_sum [Zero R] [Add R] (h : Heap R) (this : NodePtr) (state : String)
    (evidence : Event)
    (hev : ∀ p ∈ (h this).m_parents, evidence.has_node (h p).m_name = true) :
    evaluate_marginal h this state evidence
        = .ok (((h this).m_probabilities.filter
            (fun i => key_matches h this state evidence i.1)).foldl
              (fun returnval iter => returnval + iter.2) 0, h)
      ∧ (∀ key, key_matches h this state evidence key = true ↔
          key.get_node_state (h this).m_name = .ok state ∧
          ∀ p ∈ (h this).m_parents, ∃ s, evidence.get_node_state (h p).m_name = .ok s ∧
            key.get_node_state (h p).m_name = .ok s)
      ∧ (∀ key, (key.has_node (h this).m_name = false ∨
            ∃ p ∈ (h this).m_parents, key.has_node (h p).m_name = false) →
          key_matches h this state evidence key = false)
      ∧ (∀ key key', key.get_node_state (h this).m_name = key'.get_node_state (h this).m_name →
          (∀ p ∈ (h this).m_parents,
            key.get_node_state (h p).m_name = key'.get_node_state (h p).m_name) →
          key_matches h this state evidence key = key_matches h this state evidence key') := by
  refine ⟨evaluate_marginal_foldl h this state evidence hev,
    key_matches_iff h this state evidence, ?_, ?_⟩
  · intro key hlack
    rw [Bool.eq_false_iff]
    intro hm
    obtain ⟨hown, hpar⟩ := (key_matches_iff h this state evidence key).1 hm
    rcases hlack with hl | ⟨p, hp, hl⟩
    · rw [has_node_eq_false_iff, hown] at hl
      simp at hl
    · obtain ⟨s, _, hs⟩ := hpar p hp
      rw [has_node_eq_false_iff, hs] at hl
      simp at hl
  · intro key key' hown hpar
    rw [Bool.eq_iff_iff, key_matches_iff, key_matches_iff, hown]
    refine and_congr Iff.rfl (forall_congr' fun p => forall_congr' fun hp => ?_)
    rw [hpar p hp]

theorem evaluate_marginal_sum_witness :
    (∀ p ∈ (sprinkler_heap 1).m_parents,
        (Event.build [("Rain", "F"), ("Cloudy", "T")]).has_node (sprinkler_heap p).m_name = true)
    ∧ evaluate_marginal sprinkler_heap 1 "T" (Event.build [("Rain", "F"), ("Cloudy", "T")])
        = .ok (3 / 20, sprinkler_heap)
    ∧ evaluate_marginal sprinkler_heap 1 "T" (Event.build [("Rain", "F"), ("Cloudy", "T")])
        = .ok (((sprinkler_heap 1).m_probabilities.filter
            (fun i => key_matches sprinkler_heap 1 "T"
              (Event.build [("Rain", "F"), ("Cloudy", "T")]) i.1)).foldl
                (fun returnval iter => returnval + iter.2) 0,
            sprinkler_heap) := by
  have hev : ∀ p ∈ (sprinkler_heap 1).m_parents,
      (Event.build [("Rain", "F"), ("Cloudy", "T")]).has_node (sprinkler_heap p).m_name = true := by
    decide
  have hmain := (evaluate_marginal_sum sprinkler_heap 1 "T"
    (Event.build [("Rain", "F"), ("Cloudy", "T")]) hev).1
  refine ⟨hev, ?_, hmain⟩
  rw [hmain]
  have hfilter : (sprinkler_heap 1).m_probabilities.filter
      (fun i => key_matches sprinkler_heap 1 "T"
        (Event.build [("Rain", "F"), ("Cloudy", "T")]) i.1)
      = [(Event.build [("Cloudy", "T"), ("Rain", "T"), ("Sprinkler", "T")], 1 / 20),
         (Event.build [("Cloudy", "T"), ("Sprinkler", "T")], 1 / 10)] := by
    rfl
  rw [hfilter]
  simp only [List.foldl]
  norm_num

/-- C5: `evaluate_marginal` fails exactly when `can_be_evaluated(evidence)` is false, that is
when the evidence lacks a state for some parent, and then the error is `Marginal cannot be
evaluated`; it returns a number exactly when `can_be_evaluated(evidence)` is true, and it raises
no other error. -/
theorem evaluate_marginal_fails_iff [Zero R] [Add R] (h : Heap R) (this : NodePtr)
    (state : String) (evidence : Event) :
    (evaluate_marginal h this state evidence = .error ⟨"Marginal cannot be evaluated"⟩
        ↔ can_be_evaluated h this evidence = false)
      ∧ ((∃ v, evaluate_marginal h this state evidence = .ok (v, h))
        ↔ can_be_evaluated h this evidence = true)
      ∧ (∀ err, evaluate_marginal h this state evidence = .error err →
          err = ⟨"Marginal cannot be evaluated"⟩)
      ∧ (can_be_evaluated h this evidence = false
        ↔ ∃ p ∈ (h this).m_parents, evidence.has_node (h p).m_name = false) := by
  have hcan : can_be_evaluated h this evidence = false
      ↔ ∃ p ∈ (h this).m_parents, evidence.has_node (h p).m_name = false := by
    rw [can_be_evaluated_eq, List.all_eq_false]
    simp
  by_cases hc : can_be_evaluated h this evidence = true
  · have hall : ∀ p ∈ (h this).m_parents, evidence.has_node (h p).m_name = true := by
      rw [can_be_evaluated_eq, List.all_eq_true] at hc
      exact hc
    have hok : ∃ v, evaluate_marginal h this state evidence = .ok (v, h) := by
      simp only [evaluate_marginal, remove_irrelevant_states,
        remove_irrelevant_parent_states_ok h evidence _ hall]
      exact ⟨_, rfl⟩
    obtain ⟨v, hv⟩ := hok
    refine ⟨?_, ?_, ?_, hcan⟩
    · rw [hv, hc]
      simp
    · rw [hc]
      simp only [iff_true]
      exact ⟨v, hv⟩
    · intro err herr
      rw [hv] at herr
      simp at herr
  · have hf : can_be_evaluated h this evidence = false := by
      simpa using hc
    have herr : evaluate_marginal h this state evidence
        = .error ⟨"Marginal cannot be evaluated"⟩ := by
      simp only [evaluate_marginal, remove_irrelevant_states,
        remove_irrelevant_parent_states_error h evidence _ (hcan.1 hf)]
    refine ⟨?_, ?_, ?_, hcan⟩
    · rw [herr, hf]
      simp
    · rw [herr, hf]
      simp
    · intro err herr'
      rw [herr] at herr'
      injection herr' with herr'
      exact herr'.symm

theorem evaluate_marginal_fails_iff_witness :
    can_be_evaluated sprinkler_heap 1 (Event.build [("Rain", "T"), ("Sprinkler", "T")]) = false
    ∧ evaluate_marginal sprinkler_heap 1 "T" (Event.build [("Rain", "T"), ("Sprinkler", "T")])
        = .error ⟨"Marginal cannot be evaluated"⟩
    ∧ can_be_evaluated sprinkler_heap 1 (Event.build [("Cloudy", "F")]) = true
    ∧ (∃ v, evaluate_marginal sprinkler_heap 1 "T" (Event.build [("Cloudy", "F")])
        = .ok (v, sprinkler_heap)) :=
  have hno : can_be_evaluated sprinkler_heap 1
      (Event.build [("Rain", "T"), ("Sprinkler", "T")]) = false := by decide
  have hyes : can_be_evaluated sprinkler_heap 1 (Event.build [("Cloudy", "F")]) = true := by
    decide
  ⟨hno,
   (evaluate_marginal_fails_iff sprinkler_heap 1 "T"
      (Event.build [("Rain", "T"), ("Sprinkler", "T")])).1.2 hno,
   hyes,
   (evaluate_marginal_fails_iff sprinkler_heap 1 "T" (Event.build [("Cloudy", "F")])).2.1.2 hyes⟩

theorem all_zip_map {α β : Type} (l : List α) (f : α → β) (P : α × β → Bool) :
    (l.zip (l.map f)).all P = l.all (fun a => P (a, f a)) := by
  induction l with
  | nil => rfl
  | cons a l ih => simp [ih]

theorem all_congr_mem {α : Type} (l : List α) (P Q : α → Bool) (hPQ : ∀ a ∈ l, P a = Q a) :
    l.all P = l.all Q := by
  induction l with
  | nil => rfl
  | cons a l ih =>
    simp only [List.all_cons]
    rw [hPQ a (List.mem_cons_self _ _), ih (fun b hb => hPQ b (List.mem_cons_of_mem _ hb))]

theorem key_matches_eq_is_assignment (h : Heap R) (this : NodePtr) (s : String)
    (evidence key : Event)
    (hev : ∀ p ∈ (h this).m_parents, ∃ t, evidence.get_node_state (h p).m_name = .ok t)
    (hdom : key.m_observations.all (fun kv =>
      decide (kv.1 = (h this).m_name) ||
        (h this).m_parents.any (fun p => decide (kv.1 = (h p).m_name))) = true) :
    key_matches h this s evidence key
      = is_assignment h this s
          ((h this).m_parents.map (fun p =>
            match evidence.get_node_state (h p).m_name with
            | .ok t => t
            | .error _ => "")) key := by
  simp only [key_matches, is_assignment, hdom, Bool.and_true, List.length_map, decide_True,
    all_zip_map]
  congr 1
  apply all_congr_mem
  intro p hp
  obtain ⟨t, ht⟩ := hev p hp
  simp only [ht]

/-- C6: for a node whose table keys are all assignments of the node and its parents to declared
states and in whose table, for each parent configuration, the probabilities over the node's
states sum to 1, and for an evidence that gives every parent a declared state, the values
`evaluate_marginal(s, evidence)` over the declared states `s` sum to 1. (Neither duplicate-free
states nor distinct names are needed for this.) -/
theorem marginals_sum_to_one [AddMonoid R] [One R] (h : Heap R) (this : NodePtr)
    (evidence : Event)
    (hkeys : ∀ i ∈ (h this).m_probabilities, ∃ s ∈ (h this).m_states, ∃ c,
      is_parent_configuration h this c = true ∧ is_assignment h this s c i.1 = true)
    (hdist : ∀ c, is_parent_configuration h this c = true →
      ((h this).m_states.map (fun s => table_probability h this s c)).sum = 1)
    (hev : ∀ p ∈ (h this).m_parents, ∃ s ∈ (h p).m_states,
      evidence.get_node_state (h p).m_name = .ok s) :
    ∃ vals : List R,
      List.Forall₂ (fun s v => evaluate_marginal h this s evidence = .ok (v, h))
        (h this).m_states vals
      ∧ vals.sum = 1 := by
  have hconf : is_parent_configuration h this
      ((h this).m_parents.map (fun p =>
        match evidence.get_node_state (h p).m_name with
        | .ok t => t
        | .error _ => "")) = true := by
    simp only [is_parent_configuration, List.length_map, decide_True, Bool.true_and, all_zip_map,
      List.all_eq_true, decide_eq_true_eq]
    intro p hp
    obtain ⟨t, ht, hget⟩ := hev p hp
    simp only [hget]
    exact ht
  have hhas : ∀ p ∈ (h this).m_parents, evidence.has_node (h p).m_name = true := by
    intro p hp
    obtain ⟨t, _, hget⟩ := hev p hp
    exact (has_node_eq_true_iff _ _).2 ⟨t, hget⟩
  have hval : ∀ s, evaluate_marginal h this s evidence
      = .ok (table_probability h this s
          ((h this).m_parents.map (fun p =>
            match evidence.get_node_state (h p).m_name with
            | .ok t => t
            | .error _ => "")), h) := by
    intro s
    rw [evaluate_marginal_ok h this s evidence hhas, table_probability]
    congr 4
    apply List.filter_congr
    intro i hi
    obtain ⟨s', _, c', _, hassign⟩ := hkeys i hi
    apply key_matches_eq_is_assignment
    · intro p hp
      obtain ⟨t, _, hget⟩ := hev p hp
      exact ⟨t, hget⟩
    · simp only [is_assignment, Bool.and_eq_true] at hassign
      exact hassign.2
  refine ⟨_, ?_, hdist _ hconf⟩
  rw [List.forall₂_map_right_iff]
  exact List.forall₂_same.2 (fun s _ => hval s)

theorem marginals_sum_to_one_witness :
    (∀ i ∈ (cpt_heap 1).m_probabilities, ∃ s ∈ (cpt_heap 1).m_states, ∃ c,
      is_parent_configuration cpt_heap 1 c = true ∧ is_assignment cpt_heap 1 s c i.1 = true)
    ∧ (∀ c, is_parent_configuration cpt_heap 1 c = true →
      ((cpt_heap 1).m_states.map (fun s => table_probability cpt_heap 1 s c)).sum = 1)
    ∧ (∀ p ∈ (cpt_heap 1).m_parents, ∃ s ∈ (cpt_heap p).m_states,
      (Event.build [("Cloudy", "T"), ("Rain", "F")]).get_node_state (cpt_heap p).m_name = .ok s)
    ∧ evaluate_marginal cpt_heap 1 "T" (Event.build [("Cloudy", "T"), ("Rain", "F")])
        = .ok (1 / 10, cpt_heap)
    ∧ evaluate_marginal cpt_heap 1 "F" (Event.build [("Cloudy", "T"), ("Rain", "F")])
        = .ok (9 / 10, cpt_heap)
    ∧ ∃ vals : List ℚ,
      List.Forall₂
        (fun s v => evaluate_marginal cpt_heap 1 s
          (Event.build [("Cloudy", "T"), ("Rain", "F")]) = .ok (v, cpt_heap))
        (cpt_heap 1).m_states vals
      ∧ vals.sum = 1 := by
  have hkeys : ∀ i ∈ (cpt_heap 1).m_probabilities, ∃ s ∈ (cpt_heap 1).m_states, ∃ c,
      is_parent_configuration cpt_heap 1 c = true ∧ is_assignment cpt_heap 1 s c i.1 = true := by
    intro i hi
    have hi' : i ∈ [(Event.build [("Cloudy", "F"), ("Sprinkler", "F")], (1 / 2 : ℚ)),
        (Event.build [("Cloudy", "F"), ("Sprinkler", "T")], 1 / 2),
        (Event.build [("Cloudy", "T"), ("Sprinkler", "F")], 9 / 10),
        (Event.build [("Cloudy", "T"), ("Sprinkler", "T")], 1 / 10)] := hi
    simp only [List.mem_cons, List.mem_singleton, List.not_mem_nil, or_false] at hi'
    rcases hi' with rfl | rfl | rfl | rfl
    · exact ⟨"F", by decide, ["F"], by decide, by decide⟩
    · exact ⟨"T", by decide, ["F"], by decide, by decide⟩
    · exact ⟨"F", by decide, ["T"], by decide, by decide⟩
    · exact ⟨"T", by decide, ["T"], by decide, by decide⟩
  have hdist : ∀ c, is_parent_configuration cpt_heap 1 c = true →
      ((cpt_heap 1).m_states.map (fun s => table_probability cpt_heap 1 s c)).sum = 1 := by
    intro c hc
    have hc' : c = ["T"] ∨ c = ["F"] := by
      match c, hc with
      | [], hc => exact absurd hc (by decide)
      | [x], hc =>
        simp only [is_parent_configuration, Bool.and_eq_true, decide_eq_true_eq] at hc
        have hx : x ∈ ["T", "F"] := by
          have := hc.2
          simpa [cpt_heap] using this
        simp only [List.mem_cons, List.mem_singleton, List.not_mem_nil, or_false] at hx
        rcases hx with rfl | rfl
        · exact Or.inl rfl
        · exact Or.inr rfl
      | _ :: _ :: _, hc =>
        simp only [is_parent_configuration, Bool.and_eq_true, decide_eq_true_eq] at hc
        exact absurd hc.1 (by simp [cpt_heap])
    rcases hc' with rfl | rfl
    · have e1 : table_probability cpt_heap 1 "T" ["T"] = 1 / 10 := by
        have : (cpt_heap 1).m_probabilities.filter
            (fun i => is_assignment cpt_heap 1 "T" ["T"] i.1)
            = [(Event.build [("Cloudy", "T"), ("Sprinkler", "T")], 1 / 10)] := rfl
        rw [table_probability, this]
        simp
      have e2 : table_probability cpt_heap 1 "F" ["T"] = 9 / 10 := by
        have : (cpt_heap 1).m_probabilities.filter
            (fun i => is_assignment cpt_heap 1 "F" ["T"] i.1)
            = [(Event.build [("Cloudy", "T"), ("Sprinkler", "F")], 9 / 10)] := rfl
        rw [table_probability, this]
        simp
      have hst : (cpt_heap 1).m_states = ["T", "F"] := rfl
      rw [hst]
      simp only [List.map_cons, List.map_nil, List.sum_cons, List.sum_nil, e1, e2]
      norm_num
    · have e1 : table_probability cpt_heap 1 "T" ["F"] = 1 / 2 := by
        have : (cpt_heap 1).m_probabilities.filter
            (fun i => is_assignment cpt_heap 1 "T" ["F"] i.1)
            = [(Event.build [("Cloudy", "F"), ("Sprinkler", "T")], 1 / 2)] := rfl
        rw [table_probability, this]
        simp
      have e2 : table_probability cpt_heap 1 "F" ["F"] = 1 / 2 := by
        have : (cpt_heap 1).m_probabilities.filter
            (fun i => is_assignment cpt_heap 1 "F" ["F"] i.1)
            = [(Event.build [("Cloudy", "F"), ("Sprinkler", "F")], 1 / 2)] := rfl
        rw [table_probability, this]
        simp
      have hst : (cpt_heap 1).m_states = ["T", "F"] := rfl
      rw [hst]
      simp only [List.map_cons, List.map_nil, List.sum_cons, List.sum_nil, e1, e2]
      norm_num
  have hev : ∀ p ∈ (cpt_heap 1).m_parents, ∃ s ∈ (cpt_heap p).m_states,
      (Event.build [("Cloudy", "T"), ("Rain", "F")]).get_node_state (cpt_heap p).m_name
        = .ok s := by
    intro p hp
    have hp' : p ∈ [0] := hp
    simp only [List.mem_singleton] at hp'
    subst hp'
    exact ⟨"T", by decide, by decide⟩
  have hhas : ∀ p ∈ (cpt_heap 1).m_parents,
      (Event.build [("Cloudy", "T"), ("Rain", "F")]).has_node (cpt_heap p).m_name = true := by
    decide
  refine ⟨hkeys, hdist, hev, ?_, ?_,
    marginals_sum_to_one cpt_heap 1 (Event.build [("Cloudy", "T"), ("Rain", "F")])
      hkeys hdist hev⟩
  · rw [evaluate_marginal_ok cpt_heap 1 "T" _ hhas]
    have : (cpt_heap 1).m_probabilities.filter
        (fun i => key_matches cpt_heap 1 "T" (Event.build [("Cloudy", "T"), ("Rain", "F")]) i.1)
        = [(Event.build [("Cloudy", "T"), ("Sprinkler", "T")], 1 / 10)] := rfl
    rw [this]
    simp
  · rw [evaluate_marginal_ok cpt_heap 1 "F" _ hhas]
    have : (cpt_heap 1).m_probabilities.filter
        (fun i => key_matches cpt_heap 1 "F" (Event.build [("Cloudy", "T"), ("Rain", "F")]) i.1)
        = [(Event.build [("Cloudy", "T"), ("Sprinkler", "F")], 9 / 10)] := rfl
    rw [this]
    simp

/-! ## One step of the enumeration -/

theorem get_node_state_set_node (e : Event) (n s n' : String) :
    (e.set_node n s).get_node_state n'
      = if n = n' then .ok s else e.get_node_state n' := by
  simp only [Event.get_node_state, Event.set_node_observations,
    ObservationMap.find_insert_or_assign]
  by_cases hn : n = n' <;> simp [hn]

theorem find_set_node (e : Event) (n s n' : String) :
    (e.set_node n s).m_observations.find n'
      = if n = n' then some s else e.m_observations.find n' := by
  simp only [Event.set_node_observations, ObservationMap.find_insert_or_assign]

theorem state_index_set_node_ne (states : List String) (e : Event) (n s n' : String)
    (hn : n ≠ n') : state_index states (e.set_node n s) n' = state_index states e n' := by
  simp only [state_index, get_node_state_set_node, hn, if_false]

theorem state_index_set_node_self (states : List String) (e : Event) (n s : String) :
    state_index states (e.set_node n s) n = states.indexOf s := by
  simp only [state_index, get_node_state_set_node, if_true]

theorem state_index_of_get (states : List String) (e : Event) (n s : String)
    (hs : e.get_node_state n = .ok s) : state_index states e n = states.indexOf s := by
  simp only [state_index, hs]

theorem next_state_spec (states : List String) (s : String) (hnd : states.Nodup)
    (hs : s ∈ states) :
    ∃ s', next_state states s = .ok (s', decide (states.indexOf s + 1 = states.length))
      ∧ s' ∈ states
      ∧ states.indexOf s' = (states.indexOf s + 1) % states.length := by
  have hlt : states.indexOf s < states.length := List.indexOf_lt_length.2 hs
  have hne : states.indexOf s ≠ states.length := Nat.ne_of_lt hlt
  unfold next_state
  rw [dif_neg hne]
  by_cases hlast : states.indexOf s + 1 = states.length
  · rw [dif_pos hlast]
    cases states with
    | nil => simp at hs
    | cons start rest =>
      refine ⟨start, ?_, List.mem_cons_self _ _, ?_⟩
      · simp [hlast]
      · rw [hlast, Nat.mod_self]
        simp
  · rw [dif_neg hlast]
    have hlt' : states.indexOf s + 1 < states.length := by omega
    refine ⟨states.get ⟨states.indexOf s + 1, hlt'⟩, ?_, List.get_mem _ _ _, ?_⟩
    · simp [hlast]
    · rw [List.get_indexOf hnd, Nat.mod_eq_of_lt hlt']

theorem digit_pairs_congr (h : Heap R) (e e' : Event) (ps : List NodePtr)
    (hsame : ∀ p ∈ ps, e'.get_node_state (h p).m_name = e.get_node_state (h p).m_name) :
    digit_pairs h e' ps = digit_pairs h e ps := by
  unfold digit_pairs
  apply List.map_congr_left
  intro p hp
  simp only [state_index, hsame p hp]

theorem digit_pairs_cons (h : Heap R) (e : Event) (p : NodePtr) (ps : List NodePtr) :
    digit_pairs h e (p :: ps)
      = (state_index (h p).m_states e (h p).m_name, (h p).m_states.length)
          :: digit_pairs h e ps := rfl

/-- The `do ... while` loop is the increment of the number written, least significant digit
first, by the visited nodes; `flipped` is the carry out of the last visited node. -/
theorem next_combination_parents_spec (h : Heap R) (ps : List NodePtr) (event : Event)
    (hne : ps ≠ [])
    (hnames : (ps.map (fun p => (h p).m_name)).Nodup)
    (hstates : ∀ p ∈ ps, (h p).m_states.Nodup)
    (hvalid : ∀ p ∈ ps, ∃ s ∈ (h p).m_states, event.get_node_state (h p).m_name = .ok s) :
    ∃ event' flipped,
      next_combination_parents h ps event = .ok (event', flipped, true)
      ∧ (∀ p ∈ ps, ∃ s ∈ (h p).m_states, event'.get_node_state (h p).m_name = .ok s)
      ∧ (∀ n, n ∉ ps.map (fun p => (h p).m_name) →
          event'.get_node_state n = event.get_node_state n)
      ∧ value_lsf (digit_pairs h event' ps)
          + (if flipped = true then (ps.map (fun p => (h p).m_states.length)).prod else 0)
        = value_lsf (digit_pairs h event ps) + 1
      ∧ (event.Reachable → event'.Reachable) := by
  induction ps generalizing event with
  | nil => exact absurd rfl hne
  | cons p rest ih =>
    obtain ⟨s, hs, hget⟩ := hvalid p (List.mem_cons_self _ _)
    have hnd := hstates p (List.mem_cons_self _ _)
    obtain ⟨s', hnext, hs', hidx⟩ := next_state_spec (h p).m_states s hnd hs
    have hlt : (h p).m_states.indexOf s < (h p).m_states.length := List.indexOf_lt_length.2 hs
    have hnames' := List.nodup_cons.1 hnames
    have hp_notin : (h p).m_name ∉ rest.map (fun q => (h q).m_name) := hnames'.1
    -- the event after this round of the loop
    have hframe1 : ∀ n, n ∉ (p :: rest).map (fun q => (h q).m_name) →
        (event.set_node (h p).m_name s').get_node_state n = event.get_node_state n := by
      intro n hn
      rw [get_node_state_set_node]
      have hpn : (h p).m_name ≠ n := by
        rintro rfl
        exact hn (List.mem_cons_self _ _)
      simp [hpn]
    have hrest1 : ∀ q ∈ rest,
        (event.set_node (h p).m_name s').get_node_state (h q).m_name
          = event.get_node_state (h q).m_name := by
      intro q hq
      rw [get_node_state_set_node]
      have hpn : (h p).m_name ≠ (h q).m_name := by
        intro heq
        exact hp_notin (heq ▸ List.mem_map_of_mem _ hq)
      simp [hpn]
    have hself1 : (event.set_node (h p).m_name s').get_node_state (h p).m_name = .ok s' := by
      rw [get_node_state_set_node]
      simp
    have hd0 : state_index (h p).m_states event (h p).m_name = (h p).m_states.indexOf s :=
      state_index_of_get _ _ _ _ hget
    by_cases hcont : rest ≠ [] ∧ (h p).m_states.indexOf s + 1 = (h p).m_states.length
    · -- the loop goes on to the next node
      obtain ⟨hrest, hflip⟩ := hcont
      have hvalid1 : ∀ q ∈ rest, ∃ t ∈ (h q).m_states,
          (event.set_node (h p).m_name s').get_node_state (h q).m_name = .ok t := by
        intro q hq
        obtain ⟨t, ht, hgt⟩ := hvalid q (List.mem_cons_of_mem _ hq)
        exact ⟨t, ht, by rw [hrest1 q hq, hgt]⟩
      obtain ⟨event', flipped, hrun, hval', hfr', hnum, hreach⟩ :=
        ih (event.set_node (h p).m_name s') hrest hnames'.2
          (fun q hq => hstates q (List.mem_cons_of_mem _ hq)) hvalid1
      have hself' : event'.get_node_state (h p).m_name = .ok s' := by
        rw [hfr' _ hp_notin, hself1]
      refine ⟨event', flipped, ?_, ?_, ?_, ?_, ?_⟩
      · simp only [next_combination_parents, hget, hnext]
        have hie : rest.isEmpty = false := by
          cases rest with
          | nil => exact absurd rfl hrest
          | cons _ _ => rfl
        simp [hie, hflip, hrun]
      · intro q hq
        rcases List.mem_cons.1 hq with rfl | hq
        · exact ⟨s', hs', hself'⟩
        · exact hval' q hq
      · intro n hn
        have hn' : n ∉ rest.map (fun q => (h q).m_name) := by
          intro hmem
          exact hn (List.mem_cons_of_mem _ hmem)
        rw [hfr' n hn', hframe1 n hn]
      · rw [digit_pairs_cons, digit_pairs_cons, hd0, state_index_of_get _ _ _ _ hself', hidx,
          hflip, Nat.mod_self]
        rw [digit_pairs_congr h event _ rest hrest1] at hnum
        simp only [value_lsf, List.map_cons, List.prod_cons]
        by_cases hfl : flipped = true
        · simp only [hfl, if_true] at hnum ⊢
          have key : (h p).m_states.length *
              (value_lsf (digit_pairs h event' rest)
                + (rest.map (fun q => (h q).m_states.length)).prod)
              = (h p).m_states.length * (value_lsf (digit_pairs h event rest) + 1) := by
            rw [hnum]
          rw [Nat.mul_add, Nat.mul_add, Nat.mul_one] at key
          omega
        · simp only [hfl] at hnum ⊢
          have key : (h p).m_states.length * (value_lsf (digit_pairs h event' rest) + 0)
              = (h p).m_states.length * (value_lsf (digit_pairs h event rest) + 1) := by
            rw [← hnum]
            simp
          rw [Nat.mul_add, Nat.mul_add, Nat.mul_one] at key
          simp only [if_false, Bool.false_eq_true] at key ⊢
          omega
      · intro hr
        exact hreach (Event.Reachable.set_node _ _ _ hr)
    · -- the loop stops after this round
      refine ⟨event.set_node (h p).m_name s',
        decide ((h p).m_states.indexOf s + 1 = (h p).m_states.length), ?_, ?_, hframe1, ?_, ?_⟩
      · simp only [next_combination_parents, hget, hnext]
        by_cases hrest : rest = []
        · subst hrest
          simp
        · have hflip : ¬ (h p).m_states.indexOf s + 1 = (h p).m_states.length :=
            fun hf => hcont ⟨hrest, hf⟩
          simp [hflip]
      · intro q hq
        rcases List.mem_cons.1 hq with rfl | hq
        · exact ⟨s', hs', hself1⟩
        · obtain ⟨t, ht, hgt⟩ := hvalid q (List.mem_cons_of_mem _ hq)
          exact ⟨t, ht, by rw [hrest1 q hq, hgt]⟩
      · rw [digit_pairs_cons, digit_pairs_cons, hd0, state_index_of_get _ _ _ _ hself1, hidx,
          digit_pairs_congr h event _ rest hrest1]
        simp only [value_lsf, List.map_cons, List.prod_cons, decide_eq_true_eq]
        by_cases hflip : (h p).m_states.indexOf s + 1 = (h p).m_states.length
        · have hrest : rest = [] := by
            by_contra hrest
            exact hcont ⟨hrest, hflip⟩
          subst hrest
          simp only [hflip, if_true, Nat.mod_self, digit_pairs, List.map_nil, value_lsf,
            List.prod_nil]
          omega
        · have hlt' : (h p).m_states.indexOf s + 1 < (h p).m_states.length := by omega
          simp only [hflip, if_false, Nat.mod_eq_of_lt hlt']
          omega
      · intro hr
        exact Event.Reachable.set_node _ _ _ hr

end Node

/-! ## Mixed-radix numbers -/

theorem value_lsf_append_singleton (l : List (Nat × Nat)) (d r : Nat) :
    value_lsf (l ++ [(d, r)]) = value_lsf l + (l.map Prod.snd).prod * d := by
  induction l with
  | nil => simp [value_lsf]
  | cons x l ih =>
    have hstep : value_lsf (x :: l ++ [(d, r)]) = x.1 + x.2 * value_lsf (l ++ [(d, r)]) := rfl
    rw [hstep, ih]
    simp only [value_lsf, List.map_cons, List.prod_cons]
    rw [Nat.mul_add, Nat.mul_assoc, Nat.add_assoc]

theorem foldl_eq_value_lsf_reverse (l : List (Nat × Nat)) :
    l.foldl (fun acc dr => acc * dr.2 + dr.1) 0 = value_lsf l.reverse := by
  induction l using List.reverseRecOn with
  | nil => rfl
  | append_singleton l x ih =>
    rw [List.foldl_append, List.reverse_append]
    have hrev : [x].reverse ++ l.reverse = x :: l.reverse := rfl
    rw [hrev]
    simp only [List.foldl_cons, List.foldl_nil, value_lsf, ih]
    rw [Nat.mul_comm, Nat.add_comm]

theorem value_lsf_lt (l : List (Nat × Nat)) (hl : ∀ dr ∈ l, dr.1 < dr.2) :
    value_lsf l < (l.map Prod.snd).prod := by
  induction l with
  | nil => simp [value_lsf]
  | cons x l ih =>
    have hx := hl x (List.mem_cons_self _ _)
    have hrest := ih (fun dr hdr => hl dr (List.mem_cons_of_mem _ hdr))
    simp only [value_lsf, List.map_cons, List.prod_cons]
    have h1 : x.2 * (value_lsf l + 1) ≤ x.2 * (l.map Prod.snd).prod :=
      Nat.mul_le_mul_left _ hrest
    rw [Nat.mul_add, Nat.mul_one] at h1
    omega

theorem value_lsf_injective (l l' : List (Nat × Nat)) (hrad : l.map Prod.snd = l'.map Prod.snd)
    (hl : ∀ dr ∈ l, dr.1 < dr.2) (hl' : ∀ dr ∈ l', dr.1 < dr.2)
    (hv : value_lsf l = value_lsf l') : l = l' := by
  induction l generalizing l' with
  | nil =>
    cases l' with
    | nil => rfl
    | cons y l' => simp at hrad
  | cons x l ih =>
    cases l' with
    | nil => simp at hrad
    | cons y l' =>
      simp only [List.map_cons, List.cons.injEq] at hrad
      obtain ⟨hr, hrad'⟩ := hrad
      have hx := hl x (List.mem_cons_self _ _)
      have hy := hl' y (List.mem_cons_self _ _)
      simp only [value_lsf] at hv
      rw [← hr] at hv hy
      have hmod : x.1 = y.1 := by
        have h1 := congrArg (· % x.2) hv
        simp only [Nat.add_mul_mod_self_left] at h1
        rwa [Nat.mod_eq_of_lt hx, Nat.mod_eq_of_lt hy] at h1
      have hpos : 0 < x.2 := by omega
      have hdiv : value_lsf l = value_lsf l' := by
        rw [hmod] at hv
        have h2 : x.2 * value_lsf l = x.2 * value_lsf l' := Nat.add_left_cancel hv
        exact Nat.eq_of_mul_eq_mul_left hpos h2
      have htail := ih l' hrad' (fun dr hdr => hl dr (List.mem_cons_of_mem _ hdr))
        (fun dr hdr => hl' dr (List.mem_cons_of_mem _ hdr)) hdiv
      rw [htail]
      congr 1
      exact Prod.ext hmod hr

theorem succ_mod_of_carry (P r d V V₁ : Nat) (hV : V < P) (hc : V₁ + P = V + 1) :
    V₁ + P * ((d + 1) % r) = (V + P * d + 1) % (r * P) := by
  have hV₁ : V₁ = 0 := by omega
  have hVP : V + 1 = P := by omega
  have h1 : V + P * d + 1 = P * (d + 1) := by
    rw [Nat.mul_add, Nat.mul_one]
    omega
  rw [h1, hV₁, Nat.zero_add, Nat.mul_comm r P, Nat.mul_mod_mul_left]

theorem succ_mod_no_carry (P r d V : Nat) (hV : V + 1 < P) (hd : d < r) :
    V + 1 + P * d = (V + P * d + 1) % (r * P) := by
  have h1 : P * (d + 1) ≤ P * r := Nat.mul_le_mul_left _ hd
  rw [Nat.mul_add, Nat.mul_one] at h1
  rw [Nat.mod_eq_of_lt]
  · omega
  · rw [Nat.mul_comm r P]
    omega

namespace Node

variable {R : Type}

theorem digit_pairs_lt (h : Heap R) (e : Event) (ps : List NodePtr)
    (hvalid : ∀ p ∈ ps, ∃ s ∈ (h p).m_states, e.get_node_state (h p).m_name = .ok s) :
    ∀ dr ∈ digit_pairs h e ps, dr.1 < dr.2 := by
  intro dr hdr
  simp only [digit_pairs, List.mem_map] at hdr
  obtain ⟨p, hp, rfl⟩ := hdr
  obtain ⟨s, hs, hget⟩ := hvalid p hp
  simp only [state_index_of_get _ _ _ _ hget]
  exact List.indexOf_lt_length.2 hs

theorem digit_pairs_radices (h : Heap R) (e : Event) (ps : List NodePtr) :
    (digit_pairs h e ps).map Prod.snd = ps.map (fun p => (h p).m_states.length) := by
  simp [digit_pairs, Function.comp_def]

theorem combination_index_eq (h : Heap R) (this : NodePtr) (e : Event) :
    combination_index h this e
      = value_lsf (digit_pairs h e (h this).m_parents.reverse)
        + ((h this).m_parents.map (fun p => (h p).m_states.length)).prod
          * state_index (h this).m_states e (h this).m_name := by
  have hzip : (combination_digits h this e).zip (combination_radices h this)
      = (state_index (h this).m_states e (h this).m_name, (h this).m_states.length)
          :: digit_pairs h e (h this).m_parents := by
    simp only [combination_digits, combination_radices, List.zip_cons_cons, digit_pairs]
    congr 1
    rw [List.zip_map']
  rw [combination_index, mixed_radix_value, hzip, foldl_eq_value_lsf_reverse, List.reverse_cons,
    value_lsf_append_singleton]
  have hrev : (digit_pairs h e (h this).m_parents).reverse
      = digit_pairs h e (h this).m_parents.reverse := by
    simp [digit_pairs, List.map_reverse]
  rw [hrev, digit_pairs_radices, List.map_reverse, List.prod_reverse]

theorem combination_count_eq (h : Heap R) (this : NodePtr) :
    combination_count h this
      = (h this).m_states.length
        * ((h this).m_parents.map (fun p => (h p).m_states.length)).prod := by
  simp [combination_count, combination_radices]

/-- One call of `next_combination` on a well-formed node and an event that holds a combination:
it succeeds, the result again holds a combination, other variables keep their state, and the
place in the enumeration goes up by one modulo the number of combinations. -/
theorem next_combination_step (h : Heap R) (this : NodePtr) (event : Event)
    (hwf : well_formed h this) (hev : holds_combination h this event) :
    ∃ event', next_combination h this event = .ok event'
      ∧ holds_combination h this event'
      ∧ (∀ n, n ≠ (h this).m_name → n ∉ (h this).m_parents.map (fun p => (h p).m_name) →
          event'.get_node_state n = event.get_node_state n)
      ∧ combination_index h this event'
          = (combination_index h this event + 1) % combination_count h this
      ∧ (event.Reachable → event'.Reachable) := by
  obtain ⟨⟨_, hsnd⟩, hpst, hnames⟩ := hwf
  obtain ⟨hown_notin, hpnames⟩ := List.nodup_cons.1 hnames
  obtain ⟨⟨s0, hs0, hget0⟩, hpar⟩ := hev
  obtain ⟨s0', hnext0, hs0', hidx0⟩ := next_state_spec (h this).m_states s0 hsnd hs0
  have hd0 : state_index (h this).m_states event (h this).m_name
      = (h this).m_states.indexOf s0 := state_index_of_get _ _ _ _ hget0
  have hd0lt : (h this).m_states.indexOf s0 < (h this).m_states.length :=
    List.indexOf_lt_length.2 hs0
  have hne_par : ∀ p ∈ (h this).m_parents, (h this).m_name ≠ (h p).m_name := by
    intro p hp heq
    exact hown_notin (heq ▸ List.mem_map_of_mem _ hp)
  by_cases hps : (h this).m_parents = []
  · -- no parents: only the node's own state moves
    refine ⟨event.set_node (h this).m_name s0', ?_, ?_, ?_, ?_, ?_⟩
    · simp [next_combination, hps, next_combination_parents, hget0, hnext0]
    · refine ⟨⟨s0', hs0', by rw [get_node_state_set_node]; simp⟩, ?_⟩
      intro p hp
      rw [hps] at hp
      simp at hp
    · intro n hn _
      rw [get_node_state_set_node]
      simp [Ne.symm hn]
    · rw [combination_index_eq, combination_index_eq, combination_count_eq, hps,
        state_index_set_node_self, hd0, hidx0]
      simp [digit_pairs, value_lsf]
    · intro hr
      exact Event.Reachable.set_node _ _ _ hr
  · -- the loop over the parents runs
    have hrev_names : ((h this).m_parents.reverse.map (fun p => (h p).m_name)).Nodup := by
      rw [List.map_reverse]
      exact List.nodup_reverse.2 hpnames
    obtain ⟨event1, flipped, hrun, hval1, hfr1, hnum, hreach⟩ :=
      next_combination_parents_spec h (h this).m_parents.reverse event
        (by simpa using hps) hrev_names
        (fun p hp => (hpst p (List.mem_reverse.1 hp)).2)
        (fun p hp => hpar p (List.mem_reverse.1 hp))
    have hown_notin_rev : (h this).m_name ∉ (h this).m_parents.reverse.map (fun p => (h p).m_name) := by
      rw [List.map_reverse, List.mem_reverse]
      exact hown_notin
    have hget1 : event1.get_node_state (h this).m_name = .ok s0 := by
      rw [hfr1 _ hown_notin_rev, hget0]
    have hV : value_lsf (digit_pairs h event (h this).m_parents.reverse)
        < ((h this).m_parents.map (fun p => (h p).m_states.length)).prod := by
      have := value_lsf_lt _ (digit_pairs_lt h event (h this).m_parents.reverse
        (fun p hp => hpar p (List.mem_reverse.1 hp)))
      rwa [digit_pairs_radices, List.map_reverse, List.prod_reverse] at this
    have hV1 : value_lsf (digit_pairs h event1 (h this).m_parents.reverse)
        < ((h this).m_parents.map (fun p => (h p).m_states.length)).prod := by
      have := value_lsf_lt _ (digit_pairs_lt h event1 (h this).m_parents.reverse hval1)
      rwa [digit_pairs_radices, List.map_reverse, List.prod_reverse] at this
    rw [List.map_reverse, List.prod_reverse] at hnum
    have hfr1' : ∀ n, n ≠ (h this).m_name →
        n ∉ (h this).m_parents.map (fun p => (h p).m_name) →
        event1.get_node_state n = event.get_node_state n := by
      intro n _ hn
      apply hfr1
      rw [List.map_reverse, List.mem_reverse]
      exact hn
    by_cases hfl : flipped = true
    · -- carry out of the parents: the node's own state moves as well
      subst hfl
      simp only [if_true] at hnum
      have hpar_same : ∀ p ∈ (h this).m_parents.reverse,
          (event1.set_node (h this).m_name s0').get_node_state (h p).m_name
            = event1.get_node_state (h p).m_name := by
        intro p hp
        rw [get_node_state_set_node]
        simp [hne_par p (List.mem_reverse.1 hp)]
      refine ⟨event1.set_node (h this).m_name s0', ?_, ?_, ?_, ?_, ?_⟩
      · simp [next_combination, hrun, hget1, hnext0]
      · refine ⟨⟨s0', hs0', by rw [get_node_state_set_node]; simp⟩, ?_⟩
        intro p hp
        obtain ⟨t, ht, hgt⟩ := hval1 p (List.mem_reverse.2 hp)
        exact ⟨t, ht, by rw [hpar_same p (List.mem_reverse.2 hp), hgt]⟩
      · intro n hn hn'
        rw [get_node_state_set_node]
        simp only [Ne.symm hn, if_false]
        exact hfr1' n hn hn'
      · rw [combination_index_eq, combination_index_eq, combination_count_eq,
          state_index_set_node_self, hd0, hidx0,
          digit_pairs_congr h event1 _ (h this).m_parents.reverse hpar_same]
        exact succ_mod_of_carry _ _ _ _ _ hV hnum
      · intro hr
        exact Event.Reachable.set_node _ _ _ (hreach hr)
    · -- no carry: the loop has done the whole step
      have hfl' : flipped = false := by simpa using hfl
      subst hfl'
      simp only [Bool.false_eq_true, if_false, Nat.add_zero] at hnum
      refine ⟨event1, ?_, ?_, hfr1', ?_, hreach⟩
      · simp [next_combination, hrun]
      · exact ⟨⟨s0, hs0, hget1⟩, fun p hp => hval1 p (List.mem_reverse.2 hp)⟩
      · rw [combination_index_eq, combination_index_eq, combination_count_eq,
          state_index_of_get _ _ _ _ hget1, hd0, hnum]
        rw [hnum] at hV1
        exact succ_mod_no_carry _ _ _ _ hV1 hd0lt

/-! ## The enumeration as a whole -/

theorem combination_index_lt (h : Heap R) (this : NodePtr) (e : Event)
    (hev : holds_combination h this e) :
    combination_index h this e < combination_count h this := by
  obtain ⟨⟨s0, hs0, hget0⟩, hpar⟩ := hev
  have hV : value_lsf (digit_pairs h e (h this).m_parents.reverse)
      < ((h this).m_parents.map (fun p => (h p).m_states.length)).prod := by
    have := value_lsf_lt _ (digit_pairs_lt h e (h this).m_parents.reverse
      (fun p hp => hpar p (List.mem_reverse.1 hp)))
    rwa [digit_pairs_radices, List.map_reverse, List.prod_reverse] at this
  have hd : (h this).m_states.indexOf s0 < (h this).m_states.length :=
    List.indexOf_lt_length.2 hs0
  rw [combination_index_eq, combination_count_eq, state_index_of_get _ _ _ _ hget0]
  have h1 : ((h this).m_parents.map (fun p => (h p).m_states.length)).prod
        * ((h this).m_states.indexOf s0 + 1)
      ≤ ((h this).m_parents.map (fun p => (h p).m_states.length)).prod
        * (h this).m_states.length := Nat.mul_le_mul_left _ hd
  rw [Nat.mul_add, Nat.mul_one] at h1
  rw [Nat.mul_comm (h this).m_states.length]
  omega

theorem next_combination_iterate_spec (h : Heap R) (this : NodePtr) (event : Event)
    (hwf : well_formed h this) (hev : holds_combination h this event) (k : Nat) :
    ∃ e, next_combination_iterate h this k event = .ok e
      ∧ holds_combination h this e
      ∧ (∀ n, n ≠ (h this).m_name → n ∉ (h this).m_parents.map (fun p => (h p).m_name) →
          e.get_node_state n = event.get_node_state n)
      ∧ combination_index h this e
          = (combination_index h this event + k) % combination_count h this
      ∧ (event.Reachable → e.Reachable) := by
  induction k with
  | zero =>
    refine ⟨event, rfl, hev, fun _ _ _ => rfl, ?_, fun hr => hr⟩
    rw [Nat.add_zero, Nat.mod_eq_of_lt (combination_index_lt h this event hev)]
  | succ k ih =>
    obtain ⟨e, hrun, hhold, hframe, hidx, hreach⟩ := ih
    obtain ⟨e', hstep, hhold', hframe', hidx', hreach'⟩ :=
      next_combination_step h this e hwf hhold
    refine ⟨e', ?_, hhold', ?_, ?_, fun hr => hreach' (hreach hr)⟩
    · simp only [next_combination_iterate, hrun, hstep]
    · intro n hn hn'
      rw [hframe' n hn hn', hframe n hn hn']
    · rw [hidx', hidx, Nat.mod_add_mod, Nat.add_assoc]

/-- Two events that hold a combination and have the same place in the enumeration give the
node and every parent the same state. -/
theorem states_eq_of_combination_index_eq (h : Heap R) (this : NodePtr) (e₁ e₂ : Event)
    (h₁ : holds_combination h this e₁) (h₂ : holds_combination h this e₂)
    (hidx : combination_index h this e₁ = combination_index h this e₂) :
    e₁.get_node_state (h this).m_name = e₂.get_node_state (h this).m_name
      ∧ ∀ p ∈ (h this).m_parents,
          e₁.get_node_state (h p).m_name = e₂.get_node_state (h p).m_name := by
  obtain ⟨⟨s₁, hs₁, hget₁⟩, hpar₁⟩ := h₁
  obtain ⟨⟨s₂, hs₂, hget₂⟩, hpar₂⟩ := h₂
  have hv₁ := value_lsf_lt _ (digit_pairs_lt h e₁ (h this).m_parents.reverse
    (fun p hp => hpar₁ p (List.mem_reverse.1 hp)))
  have hv₂ := value_lsf_lt _ (digit_pairs_lt h e₂ (h this).m_parents.reverse
    (fun p hp => hpar₂ p (List.mem_reverse.1 hp)))
  rw [digit_pairs_radices, List.map_reverse, List.prod_reverse] at hv₁ hv₂
  rw [combination_index_eq, combination_index_eq, state_index_of_get _ _ _ _ hget₁,
    state_index_of_get _ _ _ _ hget₂] at hidx
  have hmod := congrArg
    (· % ((h this).m_parents.map (fun p => (h p).m_states.length)).prod) hidx
  simp only [Nat.add_mul_mod_self_left] at hmod
  rw [Nat.mod_eq_of_lt hv₁, Nat.mod_eq_of_lt hv₂] at hmod
  have hpos : 0 < ((h this).m_parents.map (fun p => (h p).m_states.length)).prod := by omega
  have hown : (h this).m_states.indexOf s₁ = (h this).m_states.indexOf s₂ := by
    rw [hmod] at hidx
    exact Nat.eq_of_mul_eq_mul_left hpos (Nat.add_left_cancel hidx)
  have hpairs : digit_pairs h e₁ (h this).m_parents.reverse
      = digit_pairs h e₂ (h this).m_parents.reverse := by
    apply value_lsf_injective _ _ _
      (digit_pairs_lt h e₁ _ (fun p hp => hpar₁ p (List.mem_reverse.1 hp)))
      (digit_pairs_lt h e₂ _ (fun p hp => hpar₂ p (List.mem_reverse.1 hp))) hmod
    rw [digit_pairs_radices, digit_pairs_radices]
  refine ⟨?_, ?_⟩
  · rw [hget₁, hget₂, ((List.indexOf_inj hs₁ hs₂).1 hown)]
  · intro p hp
    have hp' := (List.map_inj_left.1 hpairs) p (List.mem_reverse.2 hp)
    simp only [Prod.mk.injEq, and_true] at hp'
    obtain ⟨t₁, ht₁, hg₁⟩ := hpar₁ p hp
    obtain ⟨t₂, ht₂, hg₂⟩ := hpar₂ p hp
    rw [state_index_of_get _ _ _ _ hg₁, state_index_of_get _ _ _ _ hg₂] at hp'
    rw [hg₁, hg₂, ((List.indexOf_inj ht₁ ht₂).1 hp')]

theorem combination_event_spec (h : Heap R) (this : NodePtr) (s : String)
    (c : NodePtr → String) (ps : List NodePtr)
    (hnames : ((h this).m_name :: ps.map (fun p => (h p).m_name)).Nodup) :
    (combination_event h this s c ps).get_node_state (h this).m_name = .ok s
      ∧ ∀ p ∈ ps, (combination_event h this s c ps).get_node_state (h p).m_name
          = .ok (c p) := by
  induction ps with
  | nil =>
    refine ⟨?_, fun p hp => absurd hp (List.not_mem_nil _)⟩
    simp [combination_event, get_node_state_set_node]
  | cons q rest ih =>
    have hn := List.nodup_cons.1 hnames
    have hq_ne : (h q).m_name ≠ (h this).m_name := by
      intro heq
      exact hn.1 (heq ▸ List.mem_cons_self _ _)
    have hrest_nd := List.nodup_cons.1 hn.2
    have hnames' : ((h this).m_name :: rest.map (fun p => (h p).m_name)).Nodup := by
      refine List.nodup_cons.2 ⟨?_, hrest_nd.2⟩
      intro hmem
      exact hn.1 (List.mem_cons_of_mem _ hmem)
    obtain ⟨ihown, ihpar⟩ := ih hnames'
    have hunfold : combination_event h this s c (q :: rest)
        = (combination_event h this s c rest).set_node (h q).m_name (c q) := rfl
    rw [hunfold]
    refine ⟨?_, ?_⟩
    · rw [get_node_state_set_node]
      simp only [hq_ne, if_false]
      exact ihown
    · intro p hp
      rw [get_node_state_set_node]
      rcases List.mem_cons.1 hp with rfl | hp
      · simp
      · have hne : (h q).m_name ≠ (h p).m_name := by
          intro heq
          apply hrest_nd.1
          have hmem : (h p).m_name ∈ rest.map (fun p => (h p).m_name) :=
            List.mem_map_of_mem _ hp
          rw [← heq] at hmem
          exact hmem
        simp only [hne, if_false]
        exact ihpar p hp

theorem find_eq_of_get_node_state_eq (e₁ e₂ : Event) (n : String)
    (hget : e₁.get_node_state n = e₂.get_node_state n) :
    e₁.m_observations.find n = e₂.m_observations.find n := by
  simp only [Event.get_node_state] at hget
  cases h₁ : e₁.m_observations.find n with
  | none =>
    cases h₂ : e₂.m_observations.find n with
    | none => rfl
    | some v => simp [h₁, h₂] at hget
  | some v =>
    cases h₂ : e₂.m_observations.find n with
    | none => simp [h₁, h₂] at hget
    | some w =>
      simp only [h₁, h₂, Except.ok.injEq] at hget
      rw [hget]

theorem add_mod_cancel_of_lt (a j k N : Nat) (hj : j < N) (hk : k < N)
    (hmod : (a + j) % N = (a + k) % N) : j = k := by
  have h1 : j ≡ k [MOD N] := Nat.ModEq.add_left_cancel' a hmod
  have h2 : j % N = k % N := h1
  rwa [Nat.mod_eq_of_lt hj, Nat.mod_eq_of_lt hk] at h2

/-! ## Claims about `Node::next_combination` -/

theorem combination_index_congr (h : Heap R) (this : NodePtr) (e₁ e₂ : Event)
    (hown : e₁.get_node_state (h this).m_name = e₂.get_node_state (h this).m_name)
    (hpar : ∀ p ∈ (h this).m_parents,
      e₁.get_node_state (h p).m_name = e₂.get_node_state (h p).m_name) :
    combination_index h this e₁ = combination_index h this e₂ := by
  rw [combination_index_eq, combination_index_eq,
    digit_pairs_congr h e₂ e₁ _ (fun p hp => hpar p (List.mem_reverse.1 hp))]
  simp only [state_index, hown]

/-- C1: for a well-formed node (non-empty duplicate-free state lists of the node and of every
parent, pairwise distinct names of the node and its parents) and an event that gives the node
and every parent a declared state, the `N` events reached by `0, 1, ..., N-1` calls of
`next_combination`, `N` being the number of own states times the product of the numbers of
parent states, all exist and hold a combination of declared states, differ pairwise in the
state of the node or of a parent, and every combination of declared states is among them. -/
theorem next_combination_enumerates (h : Heap R) (this : NodePtr) (event : Event)
    (hwf : well_formed h this) (hev : holds_combination h this event) :
    combination_count h this
        = (h this).m_states.length
          * ((h this).m_parents.map (fun p => (h p).m_states.length)).prod
      ∧ (∀ k, k < combination_count h this →
          ∃ e, next_combination_iterate h this k event = .ok e ∧ holds_combination h this e)
      ∧ (∀ j k, j < combination_count h this → k < combination_count h this → j ≠ k →
          ∀ ej ek, next_combination_iterate h this j event = .ok ej →
            next_combination_iterate h this k event = .ok ek →
            ej ≠ ek ∧
            ¬ (ej.get_node_state (h this).m_name = ek.get_node_state (h this).m_name
              ∧ ∀ p ∈ (h this).m_parents,
                  ej.get_node_state (h p).m_name = ek.get_node_state (h p).m_name))
      ∧ (∀ s ∈ (h this).m_states, ∀ c : NodePtr → String,
          (∀ p ∈ (h this).m_parents, c p ∈ (h p).m_states) →
          ∃ k, k < combination_count h this ∧
            ∃ e, next_combination_iterate h this k event = .ok e
              ∧ e.get_node_state (h this).m_name = .ok s
              ∧ ∀ p ∈ (h this).m_parents, e.get_node_state (h p).m_name = .ok (c p)) := by
  have hpos : 0 < combination_count h this :=
    Nat.lt_of_le_of_lt (Nat.zero_le _) (combination_index_lt h this event hev)
  refine ⟨combination_count_eq h this, ?_, ?_, ?_⟩
  · intro k _
    obtain ⟨e, hrun, hhold, _⟩ := next_combination_iterate_spec h this event hwf hev k
    exact ⟨e, hrun, hhold⟩
  · intro j k hj hk hjk ej ek hrj hrk
    obtain ⟨ej', hrj', _, _, hidxj, _⟩ := next_combination_iterate_spec h this event hwf hev j
    obtain ⟨ek', hrk', _, _, hidxk, _⟩ := next_combination_iterate_spec h this event hwf hev k
    rw [hrj] at hrj'
    rw [hrk] at hrk'
    injection hrj' with hrj'
    injection hrk' with hrk'
    subst hrj' hrk'
    have hdiff : ¬ (ej.get_node_state (h this).m_name = ek.get_node_state (h this).m_name
        ∧ ∀ p ∈ (h this).m_parents,
            ej.get_node_state (h p).m_name = ek.get_node_state (h p).m_name) := by
      rintro ⟨hown, hpar⟩
      have hsame := combination_index_congr h this ej ek hown hpar
      rw [hidxj, hidxk] at hsame
      exact hjk (add_mod_cancel_of_lt _ j k _ hj hk hsame)
    refine ⟨?_, hdiff⟩
    intro heq
    subst heq
    exact hdiff ⟨rfl, fun _ _ => rfl⟩
  · intro s hs c hc
    have hnames := hwf.2.2
    obtain ⟨htown, htpar⟩ := combination_event_spec h this s c (h this).m_parents hnames
    have hthold : holds_combination h this (combination_event h this s c (h this).m_parents) :=
      ⟨⟨s, hs, htown⟩, fun p hp => ⟨c p, hc p hp, htpar p hp⟩⟩
    have hvlt := combination_index_lt h this _ hthold
    have hilt := combination_index_lt h this event hev
    obtain ⟨e, hrun, hhold, _, hidx, _⟩ := next_combination_iterate_spec h this event hwf hev
      ((combination_index h this (combination_event h this s c (h this).m_parents)
        + combination_count h this - combination_index h this event)
        % combination_count h this)
    refine ⟨_, Nat.mod_lt _ hpos, e, hrun, ?_⟩
    have hsame : combination_index h this e
        = combination_index h this (combination_event h this s c (h this).m_parents) := by
      rw [hidx, Nat.add_mod_mod]
      have hre : combination_index h this event
          + (combination_index h this (combination_event h this s c (h this).m_parents)
            + combination_count h this - combination_index h this event)
          = combination_index h this (combination_event h this s c (h this).m_parents)
            + combination_count h this := by omega
      rw [hre, Nat.add_mod_right, Nat.mod_eq_of_lt hvlt]
    obtain ⟨hown, hpar⟩ := states_eq_of_combination_index_eq h this e _ hhold hthold hsame
    exact ⟨by rw [hown, htown], fun p hp => by rw [hpar p hp, htpar p hp]⟩

theorem next_combination_enumerates_witness :
    well_formed header_heap 0
    ∧ holds_combination header_heap 0 (Event.build [("1", "F"), ("2", "T"), ("3", "F")])
    ∧ combination_count header_heap 0 = 8
    ∧ (List.range 8).map (fun k =>
          (next_combination_iterate header_heap 0 k
            (Event.build [("1", "F"), ("2", "T"), ("3", "F")])).toOption.map
            Event.m_string_representation)
        = [some "1 = F, 2 = T, 3 = F", some "1 = F, 2 = F, 3 = T", some "1 = F, 2 = F, 3 = F",
           some "1 = T, 2 = T, 3 = T", some "1 = T, 2 = T, 3 = F", some "1 = T, 2 = F, 3 = T",
           some "1 = T, 2 = F, 3 = F", some "1 = F, 2 = T, 3 = T"]
    ∧ (∀ s ∈ (header_heap 0).m_states, ∀ c : NodePtr → String,
          (∀ p ∈ (header_heap 0).m_parents, c p ∈ (header_heap p).m_states) →
          ∃ k, k < combination_count header_heap 0 ∧
            ∃ e, next_combination_iterate header_heap 0 k
                (Event.build [("1", "F"), ("2", "T"), ("3", "F")]) = .ok e
              ∧ e.get_node_state (header_heap 0).m_name = .ok s
              ∧ ∀ p ∈ (header_heap 0).m_parents,
                  e.get_node_state (header_heap p).m_name = .ok (c p)) :=
  have hwf : well_formed header_heap 0 := by
    unfold well_formed
    decide
  have hev : holds_combination header_heap 0
      (Event.build [("1", "F"), ("2", "T"), ("3", "F")]) := by
    unfold holds_combination
    decide
  ⟨hwf, hev, by decide, by decide,
    (next_combination_enumerates header_heap 0
      (Event.build [("1", "F"), ("2", "T"), ("3", "F")]) hwf hev).2.2.2⟩

/-- C2: for a well-formed node and an event of the program that gives the node and every parent
a declared state, calling `next_combination` `N` times, `N` being the number of own states times
the product of the numbers of parent states, gives back the starting event: the same mapping and
the same canonical string. -/
theorem next_combination_cyclic (h : Heap R) (this : NodePtr) (event : Event)
    (hwf : well_formed h this) (hev : holds_combination h this event)
    (hreach : event.Reachable) :
    next_combination_iterate h this
        ((h this).m_states.length
          * ((h this).m_parents.map (fun p => (h p).m_states.length)).prod) event
      = .ok event := by
  rw [← combination_count_eq]
  obtain ⟨e, hrun, hhold, hframe, hidx, hreach'⟩ :=
    next_combination_iterate_spec h this event hwf hev (combination_count h this)
  rw [Nat.add_mod_right, Nat.mod_eq_of_lt (combination_index_lt h this event hev)] at hidx
  obtain ⟨hown, hpar⟩ := states_eq_of_combination_index_eq h this e event hhold hev hidx
  have hget : ∀ n, e.get_node_state n = event.get_node_state n := by
    intro n
    by_cases hn : n = (h this).m_name
    · rw [hn, hown]
    · by_cases hn' : n ∈ (h this).m_parents.map (fun p => (h p).m_name)
      · obtain ⟨p, hp, rfl⟩ := List.mem_map.1 hn'
        exact hpar p hp
      · exact hframe n hn hn'
  have hinv := Event.reachable_inv (hreach' hreach)
  have hinv₀ := Event.reachable_inv hreach
  have hobs : e.m_observations = event.m_observations :=
    ObservationMap.eq_of_find_eq hinv.2 hinv₀.2
      (fun n => find_eq_of_get_node_state_eq e event n (hget n))
  have heq : e = event := by
    obtain ⟨m, str⟩ := e
    obtain ⟨m₀, str₀⟩ := event
    simp only at hobs hinv hinv₀
    subst hobs
    rw [Event.mk.injEq]
    exact ⟨rfl, hinv.1.trans hinv₀.1.symm⟩
  rw [hrun, heq]

theorem next_combination_cyclic_witness :
    well_formed cpt_heap 1
    ∧ holds_combination cpt_heap 1
        (Event.build [("Rain", "T"), ("Cloudy", "F"), ("Sprinkler", "T")])
    ∧ (Event.build [("Rain", "T"), ("Cloudy", "F"), ("Sprinkler", "T")]).Reachable
    ∧ (cpt_heap 1).m_states.length
        * ((cpt_heap 1).m_parents.map (fun p => (cpt_heap p).m_states.length)).prod = 4
    ∧ next_combination_iterate cpt_heap 1
        ((cpt_heap 1).m_states.length
          * ((cpt_heap 1).m_parents.map (fun p => (cpt_heap p).m_states.length)).prod)
        (Event.build [("Rain", "T"), ("Cloudy", "F"), ("Sprinkler", "T")])
      = .ok (Event.build [("Rain", "T"), ("Cloudy", "F"), ("Sprinkler", "T")]) :=
  have hwf : well_formed cpt_heap 1 := by
    unfold well_formed
    decide
  have hev : holds_combination cpt_heap 1
      (Event.build [("Rain", "T"), ("Cloudy", "F"), ("Sprinkler", "T")]) := by
    unfold holds_combination
    decide
  ⟨hwf, hev, Event.build_reachable _, by decide,
    next_combination_cyclic cpt_heap 1
      (Event.build [("Rain", "T"), ("Cloudy", "F"), ("Sprinkler", "T")]) hwf hev
      (Event.build_reachable _)⟩

/-- C3: one call of `next_combination` on a well-formed node and an event that gives the node
and every parent a declared state is the mixed-radix successor: with the digits being the
indices of the assigned states in the declared state lists, ordered own state, first-added
parent, ..., last-added parent (so the last-added parent is the fastest digit and the own state
the slowest), the call succeeds, the result again gives every variable a declared state, and its
digit string writes the number of the input plus one modulo the product of the radices. -/
theorem next_combination_successor (h : Heap R) (this : NodePtr) (event : Event)
    (hwf : well_formed h this) (hev : holds_combination h this event) :
    ∃ event', next_combination h this event = .ok event'
      ∧ holds_combination h this event'
      ∧ mixed_radix_value (combination_radices h this) (combination_digits h this event')
          = (mixed_radix_value (combination_radices h this) (combination_digits h this event) + 1)
              % (combination_radices h this).prod := by
  obtain ⟨event', hrun, hhold, _, hidx, _⟩ := next_combination_step h this event hwf hev
  exact ⟨event', hrun, hhold, hidx⟩

theorem next_combination_successor_witness :
    well_formed header_heap 0
    ∧ holds_combination header_heap 0 (Event.build [("1", "T"), ("2", "T"), ("3", "T")])
    ∧ (List.range 8).map (fun k =>
          (next_combination_iterate header_heap 0 k
            (Event.build [("1", "T"), ("2", "T"), ("3", "T")])).toOption.map
            Event.m_string_representation)
        = [some "1 = T, 2 = T, 3 = T", some "1 = T, 2 = T, 3 = F", some "1 = T, 2 = F, 3 = T",
           some "1 = T, 2 = F, 3 = F", some "1 = F, 2 = T, 3 = T", some "1 = F, 2 = T, 3 = F",
           some "1 = F, 2 = F, 3 = T", some "1 = F, 2 = F, 3 = F"]
    ∧ (List.range 8).map (fun k =>
          (next_combination_iterate header_heap 0 k
            (Event.build [("1", "T"), ("2", "T"), ("3", "T")])).toOption.map
            (fun e => mixed_radix_value (combination_radices header_heap 0)
              (combination_digits header_heap 0 e)))
        = [some 0, some 1, some 2, some 3, some 4, some 5, some 6, some 7]
    ∧ next_combination header_heap 0 (Event.build [("1", "T"), ("2", "T"), ("3", "T")])
        = .ok (Event.build [("1", "T"), ("2", "T"), ("3", "F")])
    ∧ ∃ event', next_combination header_heap 0
          (Event.build [("1", "T"), ("2", "T"), ("3", "T")]) = .ok event'
      ∧ holds_combination header_heap 0 event'
      ∧ mixed_radix_value (combination_radices header_heap 0)
            (combination_digits header_heap 0 event')
          = (mixed_radix_value (combination_radices header_heap 0)
              (combination_digits header_heap 0
                (Event.build [("1", "T"), ("2", "T"), ("3", "T")])) + 1)
              % (combination_radices header_heap 0).prod :=
  have hwf : well_formed header_heap 0 := by
    unfold well_formed
    decide
  have hev : holds_combination header_heap 0
      (Event.build [("1", "T"), ("2", "T"), ("3", "T")]) := by
    unfold holds_combination
    decide
  ⟨hwf, hev, by decide, by decide, by decide,
    next_combination_successor header_heap 0
      (Event.build [("1", "T"), ("2", "T"), ("3", "T")]) hwf hev⟩

end Node

/-! ## Claims about `Event::clear` and `Event::remove_node` -/

theorem ObservationMap.find_erase_ne (m : ObservationMap) (k k' : String) (hk : k ≠ k') :
    (m.erase k).find k' = m.find k' := by
  induction m with
  | nil => rfl
  | cons hd tl ih =>
    obtain ⟨a, b⟩ := hd
    simp only [ObservationMap.erase]
    by_cases ha : a = k
    · subst ha
      simp [ObservationMap.find, hk]
    · simp only [ha, if_false, ObservationMap.find, ih]

theorem ObservationMap.find_erase_self {m : ObservationMap} (hm : m.ordered) (k : String) :
    (m.erase k).find k = none := by
  induction m with
  | nil => rfl
  | cons hd tl ih =>
    obtain ⟨a, b⟩ := hd
    have hm' := List.pairwise_cons.1 hm
    simp only [ObservationMap.erase]
    by_cases ha : a = k
    · subst ha
      simp only [if_true]
      rw [ObservationMap.find_eq_none_iff]
      intro v hv
      exact absurd (hm'.1 _ hv) (lt_irrefl _)
    · simp only [ha, if_false, ObservationMap.find, ih hm'.2]

theorem ObservationMap.erase_of_find_none (m : ObservationMap) (k : String)
    (hk : m.find k = none) : m.erase k = m := by
  induction m with
  | nil => rfl
  | cons hd tl ih =>
    obtain ⟨a, b⟩ := hd
    simp only [ObservationMap.find] at hk
    by_cases ha : a = k
    · simp [ha] at hk
    · simp only [ha, if_false] at hk
      simp only [ObservationMap.erase, ha, if_false, ih hk]

theorem ObservationMap.erase_insert_or_assign (m : ObservationMap) (k v : String)
    (hk : m.find k = none) : (m.insert_or_assign k v).erase k = m := by
  induction m with
  | nil => simp [ObservationMap.insert_or_assign, ObservationMap.erase]
  | cons hd tl ih =>
    obtain ⟨a, b⟩ := hd
    simp only [ObservationMap.find] at hk
    by_cases ha : a = k
    · simp [ha] at hk
    · simp only [ha, if_false] at hk
      simp only [ObservationMap.insert_or_assign]
      by_cases h1 : k.data < a.data
      · simp [h1, ObservationMap.erase]
      · by_cases h2 : a.data < k.data
        · simp only [h1, h2, if_true, if_false, ObservationMap.erase, ha, ih hk]
        · exact absurd (String.ext (le_antisymm (not_lt.1 h1) (not_lt.1 h2))) ha

theorem Event.has_node_eq_false_iff_find (e : Event) (n : String) :
    e.has_node n = false ↔ e.m_observations.find n = none := by
  simp only [Event.has_node]
  cases e.m_observations.find n <;> simp

/-- An event that satisfies the invariant is determined by its mapping. -/
theorem Event.eq_of_observations_eq {a b : Event}
    (ha : a.m_string_representation = canonical_string a.m_observations)
    (hb : b.m_string_representation = canonical_string b.m_observations)
    (h : a.m_observations = b.m_observations) : a = b := by
  obtain ⟨ma, sa⟩ := a
  obtain ⟨mb, sb⟩ := b
  simp only at h ha hb
  subst h
  rw [Event.mk.injEq]
  exact ⟨rfl, ha.trans hb.symm⟩

/-- C11: for every event `A`, after `A.clear()` the canonical string is the empty string and
`has_node(name)` is false for every name. -/
theorem Event.clear_spec (A : Event) :
    A.clear.m_string_representation = "" ∧ ∀ name, A.clear.has_node name = false :=
  ⟨rfl, fun _ => rfl⟩

theorem Event.clear_spec_witness :
    (Event.build [("Rain", "T"), ("Cloudy", "F")]).clear.m_string_representation = ""
    ∧ (Event.build [("Rain", "T"), ("Cloudy", "F")]).has_node "Rain" = true
    ∧ ∀ name, (Event.build [("Rain", "T"), ("Cloudy", "F")]).clear.has_node name = false :=
  ⟨(Event.clear_spec (Event.build [("Rain", "T"), ("Cloudy", "F")])).1, by decide,
   (Event.clear_spec (Event.build [("Rain", "T"), ("Cloudy", "F")])).2⟩

/-- C12: on an event of the program, `remove_node(name)` deletes exactly the entry for `name`:
afterwards `has_node(name)` is false and every other name has the same presence and state as
before; when `name` was absent the event, mapping and canonical string, is unchanged; and
`set_node(name, s)` followed by `remove_node(name)` on an event without `name` gives back the
original event. -/
theorem Event.remove_node_spec (e : Event) (name : String) (hr : e.Reachable) :
    (e.remove_node name).has_node name = false
      ∧ (∀ n, n ≠ name →
          (e.remove_node name).has_node n = e.has_node n
          ∧ (e.remove_node name).get_node_state n = e.get_node_state n)
      ∧ (e.has_node name = false → e.remove_node name = e)
      ∧ (e.has_node name = false → ∀ s, (e.set_node name s).remove_node name = e) := by
  have hinv := Event.reachable_inv hr
  have hobs : (e.remove_node name).m_observations = e.m_observations.erase name := rfl
  refine ⟨?_, ?_, ?_, ?_⟩
  · rw [Event.has_node_eq_false_iff_find, hobs]
    exact ObservationMap.find_erase_self hinv.2 name
  · intro n hn
    simp only [Event.has_node, Event.get_node_state, hobs,
      ObservationMap.find_erase_ne _ name n (Ne.symm hn)]
    exact ⟨trivial, trivial⟩
  · intro habs
    rw [Event.has_node_eq_false_iff_find] at habs
    apply Event.eq_of_observations_eq (generate_string_representation_eq _) hinv.1
    exact ObservationMap.erase_of_find_none _ _ habs
  · intro habs s
    rw [Event.has_node_eq_false_iff_find] at habs
    apply Event.eq_of_observations_eq (generate_string_representation_eq _) hinv.1
    exact ObservationMap.erase_insert_or_assign _ _ _ habs

theorem Event.remove_node_spec_witness :
    (Event.build [("Sprinkler", "T"), ("Cloudy", "T")]).Reachable
    ∧ (Event.build [("Sprinkler", "T"), ("Cloudy", "T")]).remove_node "Sprinkler"
        = Event.build [("Cloudy", "T")]
    ∧ (Event.build [("Sprinkler", "T"), ("Cloudy", "T")]).has_node "Rain" = false
    ∧ ((Event.build [("Sprinkler", "T"), ("Cloudy", "T")]).remove_node "Sprinkler").has_node
        "Sprinkler" = false
    ∧ ((Event.build [("Sprinkler", "T"), ("Cloudy", "T")]).remove_node "Rain"
        = Event.build [("Sprinkler", "T"), ("Cloudy", "T")])
    ∧ ∀ s, ((Event.build [("Sprinkler", "T"), ("Cloudy", "T")]).set_node "Rain" s).remove_node
        "Rain" = Event.build [("Sprinkler", "T"), ("Cloudy", "T")] :=
  ⟨Event.build_reachable _, by decide, by decide,
   (Event.remove_node_spec (Event.build [("Sprinkler", "T"), ("Cloudy", "T")]) "Sprinkler"
      (Event.build_reachable _)).1,
   (Event.remove_node_spec (Event.build [("Sprinkler", "T"), ("Cloudy", "T")]) "Rain"
      (Event.build_reachable _)).2.2.1 (by decide),
   (Event.remove_node_spec (Event.build [("Sprinkler", "T"), ("Cloudy", "T")]) "Rain"
      (Event.build_reachable _)).2.2.2 (by decide)⟩

/-! ## Claims about `Node::can_be_evaluated` and the errors of `Node::next_combination` -/

namespace Node

variable {R : Type}

/-- C13: `can_be_evaluated(evidence)` is true exactly when every parent of the node has a state
in the evidence; in particular it is true for a node without parents, whatever the evidence. -/
theorem can_be_evaluated_iff (h : Heap R) (this : NodePtr) (evidence : Event) :
    (can_be_evaluated h this evidence = true
        ↔ ∀ p ∈ (h this).m_parents, ∃ s, evidence.get_node_state (h p).m_name = .ok s)
      ∧ ((h this).m_parents = [] → can_be_evaluated h this evidence = true) := by
  rw [can_be_evaluated_eq]
  refine ⟨?_, ?_⟩
  · rw [List.all_eq_true]
    exact forall_congr' fun p => forall_congr' fun _ => has_node_eq_true_iff _ _
  · intro hnil
    rw [hnil]
    rfl

theorem can_be_evaluated_iff_witness :
    can_be_evaluated sprinkler_heap 1 (Event.build [("Cloudy", "F")]) = true
    ∧ can_be_evaluated sprinkler_heap 1 (Event.build [("Rain", "F")]) = false
    ∧ (∀ p ∈ (sprinkler_heap 1).m_parents,
        ∃ s, (Event.build [("Cloudy", "F")]).get_node_state (sprinkler_heap p).m_name = .ok s)
    ∧ can_be_evaluated sprinkler_heap 0 Event.new = true :=
  ⟨by decide, by decide,
   (can_be_evaluated_iff sprinkler_heap 1 (Event.build [("Cloudy", "F")])).1.1 (by decide),
   (can_be_evaluated_iff sprinkler_heap 0 Event.new).2 rfl⟩

end Node

namespace Node

variable {R : Type}

theorem next_state_of_not_mem (states : List String) (s : String) (hs : s ∉ states) :
    next_state states s = .error ⟨"Event contains invalid state"⟩ := by
  unfold next_state
  rw [dif_pos (List.indexOf_eq_length.2 hs)]

theorem next_state_ne_stateless (states : List String) (s : String) :
    next_state states s ≠ .error ⟨"Encountered stateless node"⟩ := by
  by_cases hs : s ∈ states
  · unfold next_state
    have hlt : states.indexOf s < states.length := List.indexOf_lt_length.2 hs
    rw [dif_neg (Nat.ne_of_lt hlt)]
    by_cases hlast : states.indexOf s + 1 = states.length
    · rw [dif_pos hlast]
      cases states with
      | nil => simp at hs
      | cons start rest => simp
    · rw [dif_neg hlast]
      simp
  · rw [next_state_of_not_mem states s hs]
    intro heq
    injection heq with heq
    injection heq with heq
    exact absurd heq (by decide)

theorem get_node_state_ne_stateless (e : Event) (n : String) :
    e.get_node_state n ≠ .error ⟨"Encountered stateless node"⟩ := by
  simp only [Event.get_node_state]
  cases e.m_observations.find n with
  | none =>
    intro heq
    injection heq with heq
    injection heq with heq
    exact absurd heq (by decide)
  | some v => simp

theorem next_combination_parents_ne_stateless (h : Heap R) (ps : List NodePtr) (event : Event) :
    next_combination_parents h ps event ≠ .error ⟨"Encountered stateless node"⟩ := by
  induction ps generalizing event with
  | nil => simp [next_combination_parents]
  | cons p rest ih =>
    cases hget : event.get_node_state (h p).m_name with
    | error err =>
      simp only [next_combination_parents, hget]
      intro heq
      have herr : err = ⟨"Encountered stateless node"⟩ := by injection heq
      rw [herr] at hget
      exact get_node_state_ne_stateless event (h p).m_name hget
    | ok s =>
      cases hnext : next_state (h p).m_states s with
      | error err =>
        simp only [next_combination_parents, hget, hnext]
        intro heq
        have herr : err = ⟨"Encountered stateless node"⟩ := by injection heq
        rw [herr] at hnext
        exact next_state_ne_stateless (h p).m_states s hnext
      | ok r =>
        obtain ⟨s', flipped⟩ := r
        simp only [next_combination_parents, hget, hnext]
        split_ifs
        · exact ih _
        · simp

/-- The `throw` of `Encountered stateless node` is never reached: an empty state list makes
the search for the current state fail first. -/
theorem next_combination_ne_stateless (h : Heap R) (this : NodePtr) (event : Event) :
    next_combination h this event ≠ .error ⟨"Encountered stateless node"⟩ := by
  cases hrun : next_combination_parents h (h this).m_parents.reverse event with
  | error err =>
    simp only [next_combination, hrun]
    intro heq
    have herr : err = ⟨"Encountered stateless node"⟩ := by injection heq
    rw [herr] at hrun
    exact next_combination_parents_ne_stateless h _ event hrun
  | ok r =>
    obtain ⟨event', flipped, changed_state⟩ := r
    simp only [next_combination, hrun]
    split_ifs
    · cases hget : event'.get_node_state (h this).m_name with
      | error err =>
        simp only
        intro heq
        have herr : err = ⟨"Encountered stateless node"⟩ := by injection heq
        rw [herr] at hget
        exact get_node_state_ne_stateless event' (h this).m_name hget
      | ok s =>
        cases hnext : next_state (h this).m_states s with
        | error err =>
          simp only [hnext]
          intro heq
          have herr : err = ⟨"Encountered stateless node"⟩ := by injection heq
          rw [herr] at hnext
          exact next_state_ne_stateless (h this).m_states s hnext
        | ok r =>
          simp only [hnext]
          simp
    · simp

/-- What the call does when the variable it visits first holds a state that is not declared. -/
theorem next_combination_parents_invalid (h : Heap R) (p : NodePtr) (rest : List NodePtr)
    (event : Event) (s : String) (hget : event.get_node_state (h p).m_name = .ok s)
    (hs : s ∉ (h p).m_states) :
    next_combination_parents h (p :: rest) event = .error ⟨"Event contains invalid state"⟩ := by
  simp only [next_combination_parents, hget, next_state_of_not_mem _ _ hs]

/-- C14 fails on the node `A`, which has no states and no parents, with the event `A = T`: the
call fails with `Event contains invalid state`, not with `Encountered stateless node`. The same
holds when the carry reaches a stateless parent: on `N`, whose parents are `A` (no states) and
`B`, added in this order, the event with `B = F` fails with `Event contains invalid state`. With
`B = T` the carry does not reach `A` and the call returns normally. On this heap no call, on any
node and any event, fails with `Encountered stateless node`. -/
theorem next_combination_stateless_counterexample :
    (stateless_heap 1).m_states = []
      ∧ 1 ∈ (stateless_heap 0).m_parents
      ∧ next_combination stateless_heap 0 (Event.build [("N", "T"), ("A", "T"), ("B", "T")])
          = .ok (Event.build [("N", "T"), ("A", "T"), ("B", "F")])
      ∧ next_combination stateless_heap 1 (Event.build [("A", "T")])
          = .error ⟨"Event contains invalid state"⟩
      ∧ next_combination stateless_heap 0 (Event.build [("N", "T"), ("A", "T"), ("B", "F")])
          = .error ⟨"Event contains invalid state"⟩
      ∧ ∀ (this : NodePtr) (event : Event),
          next_combination stateless_heap this event
            ≠ .error ⟨"Encountered stateless node"⟩ :=
  ⟨by decide, by decide, by decide, by decide, by decide,
   fun this event => next_combination_ne_stateless stateless_heap this event⟩

/-- If the variable the call visits first, the last-added parent or, for a node without
parents, the node itself, has an empty state list, then `next_combination` fails with an error
and returns no event, for every event. -/
theorem next_combination_fails_of_stateless (h : Heap R) (this : NodePtr) (event : Event)
    (hempty : (∃ p, (h this).m_parents.getLast? = some p ∧ (h p).m_states = [])
      ∨ ((h this).m_parents = [] ∧ (h this).m_states = [])) :
    ∃ err, next_combination h this event = .error err := by
  rcases hempty with ⟨p, hlast, hst⟩ | ⟨hnil, hst⟩
  · rw [List.getLast?_eq_head?_reverse, List.head?_eq_some_iff] at hlast
    obtain ⟨rest, hrev⟩ := hlast
    cases hget : event.get_node_state (h p).m_name with
    | error err =>
      refine ⟨err, ?_⟩
      simp only [next_combination, hrev, next_combination_parents, hget]
    | ok s =>
      have hs : s ∉ (h p).m_states := by
        rw [hst]
        exact List.not_mem_nil _
      refine ⟨⟨"Event contains invalid state"⟩, ?_⟩
      simp only [next_combination, hrev, next_combination_parents_invalid h p rest event s hget hs]
  · cases hget : event.get_node_state (h this).m_name with
    | error err =>
      refine ⟨err, ?_⟩
      simp only [next_combination, hnil, List.reverse_nil, next_combination_parents, hget,
        Bool.false_or, Bool.not_false, if_true]
    | ok s =>
      have hs : s ∉ (h this).m_states := by
        rw [hst]
        exact List.not_mem_nil _
      refine ⟨⟨"Event contains invalid state"⟩, ?_⟩
      simp only [next_combination, hnil, List.reverse_nil, next_combination_parents, hget,
        Bool.false_or, Bool.not_false, if_true, next_state_of_not_mem _ _ hs]

theorem next_combination_fails_of_stateless_witness :
    ((∃ p, (stateless_heap 1).m_parents.getLast? = some p ∧ (stateless_heap p).m_states = [])
      ∨ ((stateless_heap 1).m_parents = [] ∧ (stateless_heap 1).m_states = []))
    ∧ next_combination stateless_heap 1 (Event.build [("A", "T")])
        = .error ⟨"Event contains invalid state"⟩
    ∧ ∃ err, next_combination stateless_heap 1 (Event.build [("A", "T")]) = .error err :=
  ⟨Or.inr ⟨rfl, rfl⟩, by decide,
   next_combination_fails_of_stateless stateless_heap 1 (Event.build [("A", "T")])
     (Or.inr ⟨rfl, rfl⟩)⟩

/-- C15: if the state the event gives the last-added parent or, for a node without parents,
the node itself is not in the declared state list of that variable, `next_combination` fails
with the error `Event contains invalid state`. -/
theorem next_combination_invalid_state (h : Heap R) (this : NodePtr) (event : Event)
    (hbad : (∃ p s, (h this).m_parents.getLast? = some p
        ∧ event.get_node_state (h p).m_name = .ok s ∧ s ∉ (h p).m_states)
      ∨ ((h this).m_parents = []
        ∧ ∃ s, event.get_node_state (h this).m_name = .ok s ∧ s ∉ (h this).m_states)) :
    next_combination h this event = .error ⟨"Event contains invalid state"⟩ := by
  rcases hbad with ⟨p, s, hlast, hget, hs⟩ | ⟨hnil, s, hget, hs⟩
  · rw [List.getLast?_eq_head?_reverse, List.head?_eq_some_iff] at hlast
    obtain ⟨rest, hrev⟩ := hlast
    simp only [next_combination, hrev, next_combination_parents_invalid h p rest event s hget hs]
  · simp only [next_combination, hnil, List.reverse_nil, next_combination_parents, hget,
      Bool.false_or, Bool.not_false, if_true, next_state_of_not_mem _ _ hs]

theorem next_combination_invalid_state_witness :
    ((∃ p s, (header_heap 0).m_parents.getLast? = some p
        ∧ (Event.build [("1", "T"), ("2", "T"), ("3", "maybe")]).get_node_state
            (header_heap p).m_name = .ok s
        ∧ s ∉ (header_heap p).m_states)
      ∨ ((header_heap 0).m_parents = []
        ∧ ∃ s, (Event.build [("1", "T"), ("2", "T"), ("3", "maybe")]).get_node_state
            (header_heap 0).m_name = .ok s ∧ s ∉ (header_heap 0).m_states))
    ∧ next_combination header_heap 0 (Event.build [("1", "T"), ("2", "T"), ("3", "maybe")])
        = .error ⟨"Event contains invalid state"⟩ :=
  have hbad : (∃ p s, (header_heap 0).m_parents.getLast? = some p
        ∧ (Event.build [("1", "T"), ("2", "T"), ("3", "maybe")]).get_node_state
            (header_heap p).m_name = .ok s
        ∧ s ∉ (header_heap p).m_states)
      ∨ ((header_heap 0).m_parents = []
        ∧ ∃ s, (Event.build [("1", "T"), ("2", "T"), ("3", "maybe")]).get_node_state
            (header_heap 0).m_name = .ok s ∧ s ∉ (header_heap 0).m_states) :=
    Or.inl ⟨2, "maybe", rfl, by decide, by decide⟩
  ⟨hbad, next_combination_invalid_state header_heap 0 _ hbad⟩

end Node

/-! ## Claims about `Node::add_child` and `Node::add_parent` -/

namespace Node

variable {R : Type}

/-- C16: for distinct nodes `p` and `c`, `p.add_child(c)` appends `c` to the end of the child
list of `p` and `p` to the end of the parent list of `c` and changes nothing else, in these two
nodes or in any other; `c.add_parent(p)` from the same heap gives exactly the same heap; and
`n.add_child(n)` and `n.add_parent(n)` leave the heap as it is. -/
theorem add_child_spec (h : Heap R) (p c n : NodePtr) (hpc : p ≠ c) :
    add_child h p c p = { h p with m_children := (h p).m_children ++ [c] }
      ∧ add_child h p c c = { h c with m_parents := (h c).m_parents ++ [p] }
      ∧ (∀ q, q ≠ p → q ≠ c → add_child h p c q = h q)
      ∧ add_parent h c p = add_child h p c
      ∧ add_child h n n = h
      ∧ add_parent h n n = h := by
  have hcp : c ≠ p := Ne.symm hpc
  refine ⟨?_, ?_, ?_, ?_, ?_, ?_⟩
  · simp [add_child, hcp, Function.update, hpc]
  · simp [add_child, hcp, Function.update]
  · intro q hqp hqc
    simp [add_child, hcp, Function.update, hqp, hqc]
  · funext q
    by_cases hqp : q = p
    · subst hqp
      simp [add_child, add_parent, hcp, Function.update, hpc]
    · by_cases hqc : q = c
      · subst hqc
        simp [add_child, add_parent, Function.update, hqp, Ne.symm hqp]
      · simp [add_child, add_parent, hcp, hpc, Function.update, hqp, hqc]
  · simp [add_child]
  · simp [add_parent]

theorem add_child_spec_witness :
    (0 : NodePtr) ≠ 1
    ∧ (add_child test_nodes 0 1 0).m_children = [1]
    ∧ (add_child test_nodes 0 1 1).m_parents = [0]
    ∧ (add_child (add_child test_nodes 0 1) 2 1 1).m_parents = [0, 2]
    ∧ add_parent test_nodes 1 0 = add_child test_nodes 0 1
    ∧ add_child test_nodes 3 3 = test_nodes :=
  ⟨by decide, by decide, by decide, by decide,
   (add_child_spec test_nodes 0 1 3 (by decide)).2.2.2.1,
   (add_child_spec test_nodes 0 1 3 (by decide)).2.2.2.2.1⟩

end Node

/-! ## Claims about the test program -/

/-- C17, evaluated: after the statements of the test program for `cloudy` and `sprinkler`,
`evaluate_marginal("T", evidence)` of `sprinkler` is `0.5` for the evidence `Cloudy = F` and
`0.9`, not `0.1`, for the evidence `Cloudy = T`. The calls of `next_combination` move the parent
`Cloudy` first, so the four values land on `F,T`, `T,F`, `F,F`, `T,T` in (cloudy, sprinkler)
order and not on `F,T`, `F,F`, `T,T`, `T,F` as the comments of the program say. -/
theorem test_sprinkler_marginals :
    table_after test_population_sprinkler 1
        = .ok [("Cloudy = F, Sprinkler = F", 1 / 10), ("Cloudy = F, Sprinkler = T", 1 / 2),
               ("Cloudy = T, Sprinkler = F", 1 / 2), ("Cloudy = T, Sprinkler = T", 9 / 10)]
      ∧ marginal_after test_population_sprinkler 1 "T"
          (fun _ => Event.new.set_node "Cloudy" "F") = .ok (1 / 2)
      ∧ marginal_after test_population_sprinkler 1 "T"
          (fun _ => Event.new.set_node "Cloudy" "T") = .ok (9 / 10)
      ∧ marginal_after test_population_sprinkler 1 "T"
          (fun _ => Event.new.set_node "Cloudy" "T") ≠ .ok (1 / 10) := by
  decide!

/-- C18: after the whole table population of the test program, all four nodes in the order of
the program and with the one event `e`, `evaluate_marginal` of `grasswet` under the evidence the
program builds (`e.clear()`, then `Sprinkler = F`, `Rain = T`) is `0.9` for the state `T` and
`0.1` for the state `F`. -/
theorem test_grasswet_marginals :
    marginal_after test_population 3 "T"
        (fun e => (e.clear.set_node "Sprinkler" "F").set_node "Rain" "T") = .ok (9 / 10)
      ∧ marginal_after test_population 3 "F"
        (fun e => (e.clear.set_node "Sprinkler" "F").set_node "Rain" "T") = .ok (1 / 10)
      ∧ table_after test_population 3
        = .ok [("GrassWet = F, Rain = F, Sprinkler = F", 1 / 100),
               ("GrassWet = F, Rain = F, Sprinkler = T", 1 / 10),
               ("GrassWet = F, Rain = T, Sprinkler = F", 1 / 10),
               ("GrassWet = F, Rain = T, Sprinkler = T", 1),
               ("GrassWet = T, Rain = F, Sprinkler = F", 0),
               ("GrassWet = T, Rain = F, Sprinkler = T", 9 / 10),
               ("GrassWet = T, Rain = T, Sprinkler = F", 9 / 10),
               ("GrassWet = T, Rain = T, Sprinkler = T", 99 / 100)] := by
  decide!

/-! ## Claims about `Node::evaluate_markov_blanket` -/

theorem ObservationMap.insert_or_assign_twice (m : ObservationMap) (k a b : String) :
    (m.insert_or_assign k a).insert_or_assign k b = m.insert_or_assign k b := by
  induction m with
  | nil =>
    simp [ObservationMap.insert_or_assign]
  | cons hd tl ih =>
    obtain ⟨c, d⟩ := hd
    simp only [ObservationMap.insert_or_assign]
    by_cases h1 : k.data < c.data
    · have hkk : ¬ k.data < k.data := lt_irrefl _
      simp [h1, ObservationMap.insert_or_assign, hkk]
    · by_cases h2 : c.data < k.data
      · simp only [h1, h2, if_true, if_false, ObservationMap.insert_or_assign, ih]
      · simp only [h1, h2, if_false, ObservationMap.insert_or_assign]

theorem ObservationMap.insert_or_assign_of_find {m : ObservationMap} (hm : m.ordered)
    (k v : String) (hk : m.find k = some v) : m.insert_or_assign k v = m := by
  induction m with
  | nil => simp [ObservationMap.find] at hk
  | cons hd tl ih =>
    obtain ⟨c, d⟩ := hd
    have hm' := List.pairwise_cons.1 hm
    simp only [ObservationMap.find] at hk
    by_cases hc : c = k
    · subst hc
      simp only [if_true, Option.some.injEq] at hk
      subst hk
      have hcc : ¬ c.data < c.data := lt_irrefl _
      simp only [ObservationMap.insert_or_assign, hcc, if_false]
    · simp only [hc, if_false] at hk
      have hmem : (k, v) ∈ tl := (ObservationMap.find_eq_some_iff hm'.2 k v).1 hk
      have hlt : c.data < k.data := hm'.1 _ hmem
      have hnlt : ¬ k.data < c.data := fun hkc => lt_irrefl _ (lt_trans hlt hkc)
      simp only [ObservationMap.insert_or_assign, hnlt, hlt, if_true, if_false, ih hm'.2 hk]

/-- On an event of the program, setting a node to another state and back leaves the event as
it was. -/
theorem Event.set_node_restore (e : Event) (hr : e.Reachable) (n s temp : String)
    (htemp : e.get_node_state n = .ok temp) : (e.set_node n s).set_node n temp = e := by
  have hinv := Event.reachable_inv hr
  have hfind : e.m_observations.find n = some temp := by
    simp only [Event.get_node_state] at htemp
    cases hf : e.m_observations.find n with
    | none => simp [hf] at htemp
    | some v =>
      simp only [hf, Except.ok.injEq] at htemp
      rw [htemp]
  apply Event.eq_of_observations_eq (generate_string_representation_eq _) hinv.1
  show (e.m_observations.insert_or_assign n s).insert_or_assign n temp = e.m_observations
  rw [ObservationMap.insert_or_assign_twice,
    ObservationMap.insert_or_assign_of_find hinv.2 n temp hfind]

namespace Node

variable {R : Type}

theorem has_node_set_node (e : Event) (n s n' : String) :
    (e.set_node n s).has_node n' = (decide (n = n') || e.has_node n') := by
  simp only [Event.has_node, find_set_node]
  by_cases hn : n = n' <;> simp [hn]

theorem key_matches_congr (h : Heap R) (this : NodePtr) (state : String) (e e' key : Event)
    (hsame : ∀ p ∈ (h this).m_parents,
      e'.get_node_state (h p).m_name = e.get_node_state (h p).m_name) :
    key_matches h this state e' key = key_matches h this state e key := by
  simp only [key_matches]
  congr 1
  apply all_congr_mem
  intro p hp
  rw [hsame p hp]

/-- The loop over the children multiplies `returnval` by the marginals of the children, one by
one in the order of the list, each for the state the event gives the child; `event₀` is an
event that gives the children the same states. No law of the arithmetic is used. -/
theorem evaluate_markov_blanket_children_spec [Zero R] [Add R] [Mul R] (h : Heap R)
    (event event₀ : Event)
    (children : List NodePtr) (returnval : R)
    (hchild : ∀ c ∈ children, event.has_node (h c).m_name = true
      ∧ ∀ q ∈ (h c).m_parents, event.has_node (h q).m_name = true)
    (hsame : ∀ c ∈ children,
      event.get_node_state (h c).m_name = event₀.get_node_state (h c).m_name) :
    ∃ factors : List R,
      List.Forall₂
        (fun c f => ∃ cs, event₀.get_node_state (h c).m_name = .ok cs
          ∧ evaluate_marginal h c cs event = .ok (f, h)) children factors
      ∧ evaluate_markov_blanket_children h event children returnval
          = .ok (factors.foldl (fun returnval marginal => returnval * marginal)
              returnval) := by
  induction children generalizing returnval with
  | nil => exact ⟨[], List.Forall₂.nil, by simp [evaluate_markov_blanket_children]⟩
  | cons c rest ih =>
    obtain ⟨hc, hcp⟩ := hchild c (List.mem_cons_self _ _)
    obtain ⟨cs, hcs⟩ := (has_node_eq_true_iff _ _).1 hc
    have hcs₀ : event₀.get_node_state (h c).m_name = .ok cs := by
      rw [← hsame c (List.mem_cons_self _ _), hcs]
    have hm := evaluate_marginal_foldl h c cs event hcp
    obtain ⟨factors, hfac, hrun⟩ := ih (returnval *
      ((h c).m_probabilities.filter (fun i => key_matches h c cs event i.1)).foldl
        (fun returnval iter => returnval + iter.2) 0)
      (fun c' hc' => hchild c' (List.mem_cons_of_mem _ hc'))
      (fun c' hc' => hsame c' (List.mem_cons_of_mem _ hc'))
    refine ⟨_ :: factors, List.Forall₂.cons ⟨cs, hcs₀, hm⟩ hfac, ?_⟩
    simp only [evaluate_markov_blanket_children, get_name, hcs, hm, hrun, List.foldl_cons]

/-- C19, as stated, fails when a parent or a child has the name of the node. For the node `X`
whose parent is also named `X` and the event `X = F`, `evaluate_markov_blanket("T", event)` is
`3/4` while `evaluate_marginal("T", event)` is `0` and there are no children. For the node `Y`
whose child is also named `Y` and the event `Y = F`, the result is `3/8` while the own marginal
is `3/4` and the marginal of the child, for its state `F` in the event, is `0`. -/
theorem evaluate_markov_blanket_counterexample :
    evaluate_markov_blanket blanket_heap 2 "T" (Event.build [("X", "F")])
        = .ok (3 / 4, Event.build [("X", "F")])
      ∧ (evaluate_marginal blanket_heap 2 "T" (Event.build [("X", "F")])).map Prod.fst = .ok 0
      ∧ (blanket_heap 2).m_children = []
      ∧ evaluate_markov_blanket blanket_heap 4 "T" (Event.build [("Y", "F")])
        = .ok (3 / 8, Event.build [("Y", "F")])
      ∧ (evaluate_marginal blanket_heap 4 "T" (Event.build [("Y", "F")])).map Prod.fst
        = .ok (3 / 4)
      ∧ (blanket_heap 4).m_children = [5]
      ∧ (Event.build [("Y", "F")]).get_node_state (blanket_heap 5).m_name = .ok "F"
      ∧ (evaluate_marginal blanket_heap 5 "F"
          ((Event.build [("Y", "F")]).set_node (blanket_heap 4).m_name "T")).map Prod.fst
        = .ok 0 := by
  decide!

/-- C19, amended: for a node none of whose parents and children has the node's own name, a
candidate state, and an event that holds a state for the node, for each of its parents, for each
of its children and for each parent of those children, `evaluate_markov_blanket(state, event)`
returns the product the code forms: it starts at `1` and is multiplied, one factor after the
other, by the node's `evaluate_marginal(state, event)` and then, for every child `c` in
child-list order, by the value of `c`'s `evaluate_marginal` for the state the event gives `c`,
on the event with this node's state replaced by `state`. No law of the arithmetic is
assumed. -/
theorem evaluate_markov_blanket_product [Zero R] [Add R] [One R] [Mul R] (h : Heap R)
    (this : NodePtr)
    (state : String) (event : Event)
    (hown : event.has_node (h this).m_name = true)
    (hpar : ∀ p ∈ (h this).m_parents, event.has_node (h p).m_name = true)
    (hchild : ∀ c ∈ (h this).m_children, event.has_node (h c).m_name = true
      ∧ ∀ q ∈ (h c).m_parents, event.has_node (h q).m_name = true)
    (hpn : ∀ p ∈ (h this).m_parents, (h p).m_name ≠ (h this).m_name)
    (hcn : ∀ c ∈ (h this).m_children, (h c).m_name ≠ (h this).m_name) :
    ∃ (own : R) (factors : List R) (event' : Event),
      evaluate_marginal h this state event = .ok (own, h)
      ∧ List.Forall₂
          (fun c f => ∃ cs, event.get_node_state (h c).m_name = .ok cs
            ∧ evaluate_marginal h c cs (event.set_node (h this).m_name state) = .ok (f, h))
          (h this).m_children factors
      ∧ evaluate_markov_blanket h this state event
          = .ok ((own :: factors).foldl (fun returnval marginal => returnval * marginal) 1,
              event') := by
  obtain ⟨temp, htemp⟩ := (has_node_eq_true_iff _ _).1 hown
  have hpar₁ : ∀ p ∈ (h this).m_parents,
      (event.set_node (h this).m_name state).has_node (h p).m_name = true := by
    intro p hp
    rw [has_node_set_node, hpar p hp]
    simp
  have hsame : ∀ p ∈ (h this).m_parents,
      (event.set_node (h this).m_name state).get_node_state (h p).m_name
        = event.get_node_state (h p).m_name := by
    intro p hp
    rw [get_node_state_set_node]
    simp [Ne.symm (hpn p hp)]
  have hm := evaluate_marginal_foldl h this state event hpar
  have hm₁ := evaluate_marginal_foldl h this state (event.set_node (h this).m_name state) hpar₁
  have hfilter : (h this).m_probabilities.filter
        (fun i => key_matches h this state (event.set_node (h this).m_name state) i.1)
      = (h this).m_probabilities.filter (fun i => key_matches h this state event i.1) :=
    List.filter_congr (fun i _ => key_matches_congr h this state event _ i.1 hsame)
  rw [hfilter] at hm₁
  have hchild₁ : ∀ c ∈ (h this).m_children,
      (event.set_node (h this).m_name state).has_node (h c).m_name = true
      ∧ ∀ q ∈ (h c).m_parents,
          (event.set_node (h this).m_name state).has_node (h q).m_name = true := by
    intro c hc
    refine ⟨?_, fun q hq => ?_⟩
    · rw [has_node_set_node, (hchild c hc).1]
      simp
    · rw [has_node_set_node, (hchild c hc).2 q hq]
      simp
  have hsamec : ∀ c ∈ (h this).m_children,
      (event.set_node (h this).m_name state).get_node_state (h c).m_name
        = event.get_node_state (h c).m_name := by
    intro c hc
    rw [get_node_state_set_node]
    simp [Ne.symm (hcn c hc)]
  obtain ⟨factors, hfac, hrun⟩ := evaluate_markov_blanket_children_spec h
    (event.set_node (h this).m_name state) event (h this).m_children
    (1 * ((h this).m_probabilities.filter
      (fun i => key_matches h this state event i.1)).foldl
        (fun returnval iter => returnval + iter.2) 0) hchild₁ hsamec
  have hok : ∃ prob', remove_irrelevant_states h this (h this).m_probabilities state event
      = .ok prob' := by
    simp only [remove_irrelevant_states, remove_irrelevant_parent_states_ok h event _ hpar]
    exact ⟨_, rfl⟩
  obtain ⟨prob', hprob'⟩ := hok
  refine ⟨_, factors,
    (event.set_node (h this).m_name state).set_node (h this).m_name temp, hm, hfac, ?_⟩
  simp only [evaluate_markov_blanket, hprob', htemp, hm₁, hrun, List.foldl_cons]

theorem evaluate_markov_blanket_product_witness :
    (Event.build [("Cloudy", "F"), ("Rain", "T")]).has_node (blanket_heap 0).m_name = true
    ∧ (∀ p ∈ (blanket_heap 0).m_parents,
        (Event.build [("Cloudy", "F"), ("Rain", "T")]).has_node (blanket_heap p).m_name = true)
    ∧ (∀ c ∈ (blanket_heap 0).m_children,
        (Event.build [("Cloudy", "F"), ("Rain", "T")]).has_node (blanket_heap c).m_name = true
        ∧ ∀ q ∈ (blanket_heap c).m_parents,
          (Event.build [("Cloudy", "F"), ("Rain", "T")]).has_node (blanket_heap q).m_name = true)
    ∧ (∀ p ∈ (blanket_heap 0).m_parents, (blanket_heap p).m_name ≠ (blanket_heap 0).m_name)
    ∧ (∀ c ∈ (blanket_heap 0).m_children, (blanket_heap c).m_name ≠ (blanket_heap 0).m_name)
    ∧ evaluate_markov_blanket blanket_heap 0 "T" (Event.build [("Cloudy", "F"), ("Rain", "T")])
        = .ok (2 / 5, Event.build [("Cloudy", "F"), ("Rain", "T")])
    ∧ (evaluate_marginal blanket_heap 0 "T"
        (Event.build [("Cloudy", "F"), ("Rain", "T")])).map Prod.fst = .ok (1 / 2)
    ∧ (evaluate_marginal blanket_heap 1 "T"
        (Event.build [("Cloudy", "T"), ("Rain", "T")])).map Prod.fst = .ok (4 / 5)
    ∧ ∃ (own : ℚ) (factors : List ℚ) (event' : Event),
      evaluate_marginal blanket_heap 0 "T" (Event.build [("Cloudy", "F"), ("Rain", "T")])
        = .ok (own, blanket_heap)
      ∧ List.Forall₂
          (fun c f => ∃ cs, (Event.build [("Cloudy", "F"), ("Rain", "T")]).get_node_state
              (blanket_heap c).m_name = .ok cs
            ∧ evaluate_marginal blanket_heap c cs
                ((Event.build [("Cloudy", "F"), ("Rain", "T")]).set_node
                  (blanket_heap 0).m_name "T") = .ok (f, blanket_heap))
          (blanket_heap 0).m_children factors
      ∧ evaluate_markov_blanket blanket_heap 0 "T"
          (Event.build [("Cloudy", "F"), ("Rain", "T")])
          = .ok ((own :: factors).foldl (fun returnval marginal => returnval * marginal) 1,
              event') :=
  ⟨by decide, by decide, by decide, by decide, by decide, by decide!, by decide!, by decide!,
   evaluate_markov_blanket_product blanket_heap 0 "T"
     (Event.build [("Cloudy", "F"), ("Rain", "T")])
     (by decide) (by decide) (by decide) (by decide) (by decide)⟩

/-- C20: on an event of the program, whenever `evaluate_markov_blanket(state, event)` returns
a value, the event afterwards is the event before the call: the same mapping and the same
canonical string. -/
theorem evaluate_markov_blanket_restores [Zero R] [Add R] [One R] [Mul R] (h : Heap R)
    (this : NodePtr) (state : String) (event : Event) (hr : event.Reachable)
    (returnval : R) (event' : Event)
    (hrun : evaluate_markov_blanket h this state event = .ok (returnval, event')) :
    event' = event := by
  simp only [evaluate_markov_blanket] at hrun
  cases hprob : remove_irrelevant_states h this (h this).m_probabilities state event with
  | error err => simp [hprob] at hrun
  | ok prob' =>
    cases htemp : event.get_node_state (h this).m_name with
    | error err => simp [hprob, htemp] at hrun
    | ok temp =>
      cases hm : evaluate_marginal h this state (event.set_node (h this).m_name state) with
      | error err => simp [hprob, htemp, hm] at hrun
      | ok r =>
        obtain ⟨marginal, h'⟩ := r
        cases hch : evaluate_markov_blanket_children h
            (event.set_node (h this).m_name state) (h this).m_children (1 * marginal) with
        | error err => simp [hprob, htemp, hm, hch] at hrun
        | ok v =>
          simp only [hprob, htemp, hm, hch, Except.ok.injEq, Prod.mk.injEq] at hrun
          rw [← hrun.2]
          exact Event.set_node_restore event hr _ _ _ htemp

theorem evaluate_markov_blanket_restores_witness :
    (Event.build [("Rain", "T"), ("Cloudy", "F")]).Reachable
    ∧ evaluate_markov_blanket blanket_heap 0 "T" (Event.build [("Rain", "T"), ("Cloudy", "F")])
        = .ok (2 / 5, Event.build [("Rain", "T"), ("Cloudy", "F")])
    ∧ Event.build [("Rain", "T"), ("Cloudy", "F")]
        = Event.build [("Rain", "T"), ("Cloudy", "F")] :=
  ⟨Event.build_reachable _, by decide!,
   evaluate_markov_blanket_restores blanket_heap 0 "T"
     (Event.build [("Rain", "T"), ("Cloudy", "F")]) (Event.build_reachable _) (2 / 5)
     (Event.build [("Rain", "T"), ("Cloudy", "F")]) (by decide!)⟩

end Node

/-! ## The frame of `Node::next_combination` -/

namespace Node

variable {R : Type}

/-- Overwriting the state of a variable that the event holds keeps the set of names and the
state of every other name. -/
theorem set_node_frame (e : Event) (n s cur : String) (hget : e.get_node_state n = .ok cur)
    (n' : String) :
    (e.set_node n s).has_node n' = e.has_node n'
      ∧ (n ≠ n' → (e.set_node n s).get_node_state n' = e.get_node_state n') := by
  constructor
  · rw [has_node_set_node]
    by_cases hn : n = n'
    · subst hn
      have hpresent : e.has_node n = true := (has_node_eq_true_iff e n).2 ⟨cur, hget⟩
      simp [hpresent]
    · simp [hn]
  · intro hn
    rw [get_node_state_set_node, if_neg hn]

/-- The frame of the loop over the parents: the set of names stays, and so does the state of
every name that is not the name of a parent in the list. -/
theorem next_combination_parents_frame (h : Heap R) :
    ∀ (ps : List NodePtr) (event event' : Event) (flipped changed_state : Bool),
      next_combination_parents h ps event = .ok (event', flipped, changed_state) →
      ∀ n : String, event'.has_node n = event.has_node n
        ∧ ((∀ p ∈ ps, (h p).m_name ≠ n) → event'.get_node_state n = event.get_node_state n) := by
  intro ps
  induction ps with
  | nil =>
    intro event event' flipped changed_state hok n
    simp only [next_combination_parents, Except.ok.injEq, Prod.mk.injEq] at hok
    rw [← hok.1]
    exact ⟨rfl, fun _ => rfl⟩
  | cons p rest ih =>
    intro event event' flipped changed_state hok n
    cases hget : event.get_node_state (h p).m_name with
    | error err => simp [next_combination_parents, hget] at hok
    | ok cur =>
      cases hnext : next_state (h p).m_states cur with
      | error err => simp [next_combination_parents, hget, hnext] at hok
      | ok res =>
        obtain ⟨s, fl⟩ := res
        have hstep := set_node_frame event (h p).m_name s cur hget n
        simp only [next_combination_parents, hget, hnext] at hok
        by_cases hcarry : (!rest.isEmpty && fl) = true
        · rw [if_pos hcarry] at hok
          have hrest := ih _ _ _ _ hok n
          refine ⟨hrest.1.trans hstep.1, fun hn => ?_⟩
          rw [hrest.2 (fun q hq => hn q (List.mem_cons_of_mem _ hq))]
          exact hstep.2 (hn p (List.mem_cons_self _ _))
        · rw [if_neg hcarry] at hok
          simp only [Except.ok.injEq, Prod.mk.injEq] at hok
          rw [← hok.1]
          exact ⟨hstep.1, fun hn => hstep.2 (hn p (List.mem_cons_self _ _))⟩

/-- C22: whenever `next_combination` returns normally, the event it leaves holds exactly the
names the event held before, and every name that is neither the name of the node nor the name
of one of its parents keeps its state. -/
theorem next_combination_frame (h : Heap R) (this : NodePtr) (event event' : Event)
    (hok : next_combination h this event = .ok event') :
    (∀ n : String, event'.has_node n = event.has_node n)
      ∧ ∀ n : String, n ≠ (h this).m_name → (∀ p ∈ (h this).m_parents, n ≠ (h p).m_name) →
          event'.get_node_state n = event.get_node_state n := by
  cases hpar : next_combination_parents h (h this).m_parents.reverse event with
  | error err => simp [next_combination, hpar] at hok
  | ok res =>
    obtain ⟨e₁, fl, ch⟩ := res
    have hframe := next_combination_parents_frame h _ _ _ _ _ hpar
    have hothers : ∀ n : String, (∀ p ∈ (h this).m_parents, n ≠ (h p).m_name) →
        e₁.get_node_state n = event.get_node_state n := by
      intro n hn
      apply (hframe n).2
      intro p hp
      exact Ne.symm (hn p (List.mem_reverse.1 hp))
    simp only [next_combination, hpar] at hok
    by_cases hown : (fl || !ch) = true
    · rw [if_pos hown] at hok
      cases hget : e₁.get_node_state (h this).m_name with
      | error err => simp [hget] at hok
      | ok cur =>
        cases hnext : next_state (h this).m_states cur with
        | error err => simp [hget, hnext] at hok
        | ok res =>
          obtain ⟨s, fl'⟩ := res
          simp only [hget, hnext, Except.ok.injEq] at hok
          rw [← hok]
          refine ⟨fun n => ?_, fun n hself hn => ?_⟩
          · exact (set_node_frame e₁ _ s cur hget n).1.trans (hframe n).1
          · rw [(set_node_frame e₁ _ s cur hget n).2 (Ne.symm hself)]
            exact hothers n hn
    · rw [if_neg hown] at hok
      simp only [Except.ok.injEq] at hok
      rw [← hok]
      exact ⟨fun n => (hframe n).1, fun n _ hn => hothers n hn⟩

theorem next_combination_frame_witness :
    next_combination cpt_heap 1
        (Event.build [("Cloudy", "F"), ("Rain", "T"), ("Sprinkler", "T")])
      = .ok (Event.build [("Cloudy", "T"), ("Rain", "T"), ("Sprinkler", "F")])
    ∧ ((∀ n : String,
          (Event.build [("Cloudy", "T"), ("Rain", "T"), ("Sprinkler", "F")]).has_node n
            = (Event.build [("Cloudy", "F"), ("Rain", "T"), ("Sprinkler", "T")]).has_node n)
      ∧ ∀ n : String, n ≠ (cpt_heap 1).m_name →
          (∀ p ∈ (cpt_heap 1).m_parents, n ≠ (cpt_heap p).m_name) →
          (Event.build [("Cloudy", "T"), ("Rain", "T"), ("Sprinkler", "F")]).get_node_state n
            = (Event.build [("Cloudy", "F"), ("Rain", "T"), ("Sprinkler", "T")]).get_node_state
                n) :=
  ⟨by decide, next_combination_frame cpt_heap 1 _ _ (by decide)⟩

end Node

/-! ## Claims about `Node::get_random_state` -/

namespace Node

variable {R : Type}

/-- When every parent has a state in the event, `evaluate_marginal` returns `marginal_value`
and the heap it was called on. -/
theorem evaluate_marginal_eq_marginal_value [Zero R] [Add R] (h : Heap R) (this : NodePtr)
    (event : Event) (hev : ∀ p ∈ (h this).m_parents, event.has_node (h p).m_name = true)
    (state : String) :
    evaluate_marginal h this state event = .ok (marginal_value h this event state, h) := by
  simp only [marginal_value, evaluate_marginal_foldl h this state event hev]

/-- The loop of `get_random_state`, started with the sum `sum` on the states `rest`: without
states it returns the state it was started with; otherwise it returns the state at the first
position whose running sum is above the number drawn, and the last state when there is no such
position. The running sum at a position is `sum` with the values up to this position added one
by one; no law of the arithmetic or of the order is used. -/
theorem get_random_state_loop_spec [Zero R] [Add R] [LT R] [DecidableRel (fun a b : R => a < b)]
    (h : Heap R) (this : NodePtr) (event : Event) (u : R) (m : String → R)
    (hev : ∀ s, evaluate_marginal h this s event = .ok (m s, h)) :
    ∀ (rest : List String) (sum : R) (last : String),
      (rest = [] ∧ get_random_state_loop this event u h rest sum last = .ok last)
      ∨ ∃ k, ∃ hk : k < rest.length,
          get_random_state_loop this event u h rest sum last = .ok (rest.get ⟨k, hk⟩)
          ∧ (∀ j, j < k →
              ¬ u < ((rest.take (j + 1)).map m).foldl (fun sum value => sum + value) sum)
          ∧ (u < ((rest.take (k + 1)).map m).foldl (fun sum value => sum + value) sum
              ∨ k + 1 = rest.length) := by
  intro rest
  induction rest with
  | nil =>
    intro sum last
    exact Or.inl ⟨rfl, rfl⟩
  | cons s rest ih =>
    intro sum last
    right
    by_cases hlt : u < sum + m s
    · refine ⟨0, Nat.succ_pos _, ?_, fun j hj => absurd hj (Nat.not_lt_zero j), Or.inl ?_⟩
      · simp only [get_random_state_loop, hev, if_pos hlt]
        rfl
      · exact hlt
    · have hloop : get_random_state_loop this event u h (s :: rest) sum last
          = get_random_state_loop this event u h rest (sum + m s) s := by
        simp only [get_random_state_loop, hev, if_neg hlt]
      rcases ih (sum + m s) s with ⟨hnil, hres⟩ | ⟨k, hk, hres, hbefore, hat⟩
      · subst hnil
        refine ⟨0, Nat.succ_pos _, ?_, fun j hj => absurd hj (Nat.not_lt_zero j), Or.inr rfl⟩
        rw [hloop, hres]
        rfl
      · refine ⟨k + 1, Nat.succ_lt_succ hk, ?_, ?_, ?_⟩
        · rw [hloop, hres]
          rfl
        · intro j hj
          cases j with
          | zero => exact hlt
          | succ j => exact hbefore j (Nat.lt_of_succ_lt_succ hj)
        · rcases hat with hat | hat
          · exact Or.inl hat
          · right
            simp [hat]

/-- C21: with the number drawn as the argument `u`, for a node with at least one state and an
event that gives every parent a state, `get_random_state` returns the declared state at a
position `i` such that no running sum of the values of `evaluate_marginal` at an earlier
position is above `u`, and such that the running sum at `i` is above `u` or `i` is the last
position. The running sum is the one the code forms: it starts at `0` and the values are added
one by one in declaration order; no law of the arithmetic or of the order is assumed. -/
theorem get_random_state_inverse_cdf [Zero R] [Add R] [LT R]
    [DecidableRel (fun a b : R => a < b)]
    (h : Heap R) (this : NodePtr) (event : Event) (u : R)
    (hstates : (h this).m_states ≠ [])
    (hev : ∀ p ∈ (h this).m_parents, event.has_node (h p).m_name = true) :
    ∃ i, ∃ hi : i < (h this).m_states.length,
      get_random_state h this event u = .ok ((h this).m_states.get ⟨i, hi⟩)
      ∧ (∀ j, j < i → ¬ u < running_sum h this event j)
      ∧ (u < running_sum h this event i ∨ i + 1 = (h this).m_states.length) := by
  rcases get_random_state_loop_spec h this event u (marginal_value h this event)
      (evaluate_marginal_eq_marginal_value h this event hev) (h this).m_states 0 ""
    with ⟨hnil, _⟩ | ⟨k, hk, hres, hbefore, hat⟩
  · exact absurd hnil hstates
  · exact ⟨k, hk, hres, hbefore, hat⟩

theorem get_random_state_inverse_cdf_witness :
    (blanket_heap 1).m_states ≠ []
    ∧ (∀ p ∈ (blanket_heap 1).m_parents,
        (Event.build [("Cloudy", "T")]).has_node (blanket_heap p).m_name = true)
    ∧ get_random_state blanket_heap 1 (Event.build [("Cloudy", "T")]) (1 / 2 : ℚ) = .ok "T"
    ∧ get_random_state blanket_heap 1 (Event.build [("Cloudy", "T")]) (9 / 10 : ℚ) = .ok "F"
    ∧ get_random_state blanket_heap 1 (Event.build [("Cloudy", "T")]) (1 : ℚ) = .ok "F"
    ∧ running_sum blanket_heap 1 (Event.build [("Cloudy", "T")]) 0 = 4 / 5
    ∧ running_sum blanket_heap 1 (Event.build [("Cloudy", "T")]) 1 = 1
    ∧ ∃ i, ∃ hi : i < (blanket_heap 1).m_states.length,
        get_random_state blanket_heap 1 (Event.build [("Cloudy", "T")]) (9 / 10 : ℚ)
          = .ok ((blanket_heap 1).m_states.get ⟨i, hi⟩)
        ∧ (∀ j, j < i →
            ¬ (9 / 10 : ℚ) < running_sum blanket_heap 1 (Event.build [("Cloudy", "T")]) j)
        ∧ ((9 / 10 : ℚ) < running_sum blanket_heap 1 (Event.build [("Cloudy", "T")]) i
            ∨ i + 1 = (blanket_heap 1).m_states.length) :=
  ⟨by decide, by decide, by decide!, by decide!, by decide!, by decide!, by decide!,
   get_random_state_inverse_cdf blanket_heap 1 (Event.build [("Cloudy", "T")]) (9 / 10)
     (by decide) (by decide)⟩

end Node

/-! ## Claims about the sort utility -/

namespace quicksort

/-- A range of at most two elements is left as it is, with any fuel. -/
theorem sort_short_range (fuel : Nat) (arr : List Int) (beg end_ : Int)
    (hshort : ¬ end_ > beg + 1) : sort fuel arr beg end_ = some arr := by
  cases fuel <;> simp [sort, hshort]

/-- C23 fails at `arr = {3, 1, 2}`, `beg = 0`, `end = 2`: with any fuel but none, `sort`
returns and leaves `{2, 1, 3}`, which is not in non-decreasing order. The guard
`end > beg + 1` skips every range of two elements, here the range `0..1` of the first nested
call; so `sort` on `{2, 1}` with `beg = 0` and `end = 1` leaves the array as it is, with any
fuel. -/
theorem sort_leaves_unsorted :
    ((0 : Int) ≤ 0 ∧ (0 : Int) ≤ 2 ∧ (2 : Int) < (([3, 1, 2] : List Int).length : Int))
    ∧ (∀ fuel, sort (fuel + 1) [3, 1, 2] 0 2 = some [2, 1, 3])
    ∧ ¬ sorted_range [2, 1, 3] 0 2
    ∧ ((0 : Int) ≤ 1 ∧ (1 : Int) < (([2, 1] : List Int).length : Int))
    ∧ (∀ fuel, sort fuel [2, 1] 0 1 = some [2, 1])
    ∧ ¬ sorted_range [2, 1] 0 1 := by
  refine ⟨by decide, ?_, ?_, by decide, ?_, ?_⟩
  · intro fuel
    have hfirst : sort fuel [2, 1, 3] 0 1 = some [2, 1, 3] :=
      sort_short_range fuel _ 0 1 (by decide)
    have hsecond : sort fuel [2, 1, 3] 3 2 = some [2, 1, 3] :=
      sort_short_range fuel _ 3 2 (by decide)
    simp [sort, sort_loop, read, write, swap, hfirst, hsecond]
  · intro hsorted
    exact absurd (hsorted 0 (by decide) (by decide)) (by decide)
  · intro fuel
    exact sort_short_range fuel _ 0 1 (by decide)
  · intro hsorted
    exact absurd (hsorted 0 (by decide) (by decide)) (by decide)

end quicksort

end sbn
